import Mathlib

/-!
Verification of the goscript bytecode compiler backend and runtime object model.

The definitions below are a shallow embedding of the Rust sources:
  * `src/vm/src/objects.rs` — the runtime object model (slices, maps, upvalues);
  * `src/codegen/src/codegen.rs` — the code generator (assignment, switch,
    select lowering and identifier resolution).

Machine integers (`usize`, `OpIndex`) are modelled as `Nat`/`Int`; the loops of
the Rust source are modelled with explicit fuel where the source itself can fail
to terminate.  Heap sharing through `Rc` is modelled by carrying an explicit
allocation identifier where a claim depends on reallocation.
-/

set_option autoImplicit false

namespace Goscript

/-- Runtime value.  `GosValue` (vm crate) is a rich enum; none of the claims
here depend on its internal structure, so values are represented by an integer
payload. -/
abbrev GosV := Int

/-! ## SliceObj (`src/vm/src/objects.rs`, lines 289-442)

`SliceObj` is a `[begin, end)` window with a soft capacity over a shared
backing buffer `vec : Rc<RefCell<GosVec>>`.  The field `vecId` models the
identity of the `Rc` allocation: `try_grow_vec` replaces the `Rc` when it
reallocates, which we model by bumping `vecId`. -/

structure SliceObj where
  begin_ : Nat
  end_ : Nat
  softCap : Nat
  vec : List GosV
  vecId : Nat
  deriving Repr, DecidableEq

/-- `SliceObj::len`: `self.end - self.begin`. -/
def SliceObj.len (s : SliceObj) : Nat := s.end_ - s.begin_

/-- `SliceObj::cap`: `self.soft_cap - self.begin`. -/
def SliceObj.cap (s : SliceObj) : Nat := s.softCap - s.begin_

/-- One iteration of the capacity-growing loop body in `SliceObj::try_grow_vec`:
`if cap < 1024 { cap *= 2 } else { cap = (cap as f32 * 1.25) as usize }`.
The float multiply-and-truncate is modelled by the exact natural-number
computation `cap * 5 / 4` (identical to the `f32` result for every capacity
whose 1.25 multiple is exactly representable, in particular all `cap < 2^22`;
the single-precision rounding plays no role in any claim below, which only
depend on the doubling branch and on the result being at least `cap`). -/
def growStep (cap : Nat) : Nat :=
  if cap < 1024 then cap * 2 else cap * 5 / 4

/-- The `while cap < len { ... }` loop of `try_grow_vec`, with explicit fuel.
`none` means the loop did not terminate within `fuel` iterations. -/
def growLoop (fuel cap len : Nat) : Option Nat :=
  match fuel with
  | 0 => if len ≤ cap then some cap else none
  | f + 1 => if len ≤ cap then some cap else growLoop f (growStep cap) len

/-- `SliceObj::try_grow_vec` (objects.rs lines 409-429).  If the current
capacity already covers `len` it returns without touching the backing buffer;
otherwise it runs the growing loop and reallocates: the live window
`vec[begin..end]` is copied into a fresh buffer of the grown capacity,
`begin` is reset to 0, `end` to the data length and `soft_cap` to the new
capacity.  The fresh `Rc` allocation is modelled by `vecId + 1`. -/
def tryGrowVec (fuel : Nat) (s : SliceObj) (len : Nat) : Option SliceObj :=
  if len ≤ s.cap then some s
  else
    (growLoop fuel s.cap len).map fun newCap =>
      { begin_ := 0
        end_ := s.len
        softCap := newCap
        vec := (s.vec.drop s.begin_).take s.len
        vecId := s.vecId + 1 }

/-- `SliceObj::push` (objects.rs lines 365-370): grow for `len + 1`, push the
value onto the backing buffer, bump `end`. -/
def SliceObj.push (fuel : Nat) (s : SliceObj) (v : GosV) : Option SliceObj :=
  (tryGrowVec fuel s (s.len + 1)).map fun s' =>
    { s' with vec := s'.vec ++ [v], end_ := s'.end_ + 1 }

/-- `SliceObj::append` (objects.rs lines 372-378): grow for `len + vals.len()`,
append the values onto the backing buffer, set `end = begin + new_len`. -/
def SliceObj.appendVals (fuel : Nat) (s : SliceObj) (vals : List GosV) : Option SliceObj :=
  (tryGrowVec fuel s (s.len + vals.length)).map fun s' =>
    { s' with vec := s'.vec ++ vals, end_ := s'.begin_ + (s.len + vals.length) }

/-- A slice as created by `SliceObj::new(0, 0, None)` (objects.rs lines
301-314): zero length, zero capacity, empty backing buffer. -/
def emptySlice0 : SliceObj :=
  { begin_ := 0, end_ := 0, softCap := 0, vec := [], vecId := 0 }

/-- A push on `s` diverges: no amount of loop fuel makes it return. -/
def pushDiverges (s : SliceObj) (v : GosV) : Prop :=
  ∀ fuel, s.push fuel v = none

/-- An append on `s` diverges: no amount of loop fuel makes it return. -/
def appendDiverges (s : SliceObj) (vals : List GosV) : Prop :=
  ∀ fuel, s.appendVals fuel vals = none

theorem growStep_le (cap : Nat) : cap ≤ growStep cap := by
  unfold growStep
  split
  · omega
  · calc cap = cap * 4 / 4 := by omega
      _ ≤ cap * 5 / 4 := Nat.div_le_div_right (by omega)

theorem growStep_lt (cap : Nat) (h : 1 ≤ cap) : cap < growStep cap := by
  unfold growStep
  split
  · omega
  · have h4 : ¬ cap < 1024 := by assumption
    have : cap * 5 / 4 = cap + cap / 4 := by
      have : cap * 5 = cap + cap * 4 := by ring
      rw [this, Nat.add_mul_div_right _ _ (by norm_num : 0 < 4)]
      omega
    rw [this]
    have : 256 ≤ cap / 4 := by omega
    omega

theorem growStep_zero : growStep 0 = 0 := by decide

/-- Any successful run of the growing loop returns a capacity that covers the
requested length and is at least the starting capacity. -/
theorem growLoop_bounds (fuel : Nat) : ∀ cap len r : Nat,
    growLoop fuel cap len = some r → len ≤ r ∧ cap ≤ r := by
  induction fuel with
  | zero =>
    intro cap len r h
    unfold growLoop at h
    split at h
    · cases h; omega
    · cases h
  | succ f ih =>
    intro cap len r h
    unfold growLoop at h
    split at h
    · cases h; omega
    · have := ih (growStep cap) len r h
      exact ⟨this.1, le_trans (growStep_le cap) this.2⟩

/-- With a positive starting capacity the growing loop terminates: each
iteration strictly increases the capacity, so `len - cap` fuel suffices. -/
theorem growLoop_terminates (fuel : Nat) : ∀ cap len : Nat, 1 ≤ cap →
    len ≤ cap + fuel → ∃ r, growLoop fuel cap len = some r := by
  induction fuel with
  | zero =>
    intro cap len h1 h2
    refine ⟨cap, ?_⟩
    unfold growLoop
    simp [Nat.le_of_lt_succ, show len ≤ cap by omega]
  | succ f ih =>
    intro cap len h1 h2
    by_cases hle : len ≤ cap
    · exact ⟨cap, by unfold growLoop; simp [hle]⟩
    · have hstep := growStep_lt cap h1
      obtain ⟨r, hr⟩ := ih (growStep cap) len (by omega) (by omega)
      exact ⟨r, by unfold growLoop; simp [hle, hr]⟩

/-- When growth is needed and the starting capacity is below the 1024
threshold, the first loop iteration doubles the capacity, so the final
capacity is at least twice the starting one. -/
theorem growLoop_at_least_double (fuel cap len r : Nat) (hneed : cap < len)
    (hsmall : cap < 1024) (h : growLoop fuel cap len = some r) :
    2 * cap ≤ r := by
  cases fuel with
  | zero =>
    unfold growLoop at h
    split at h
    · omega
    · cases h
  | succ f =>
    unfold growLoop at h
    split at h
    · omega
    · have hstep : growStep cap = cap * 2 := by unfold growStep; simp [hsmall]
      rw [hstep] at h
      have := growLoop_bounds f (cap * 2) len r h
      omega

/-- The growing loop never terminates from capacity 0: doubling 0 leaves 0. -/
theorem growLoop_zero_cap (fuel : Nat) : ∀ len : Nat, 1 ≤ len →
    growLoop fuel 0 len = none := by
  induction fuel with
  | zero =>
    intro len h
    unfold growLoop
    simp [show ¬ len ≤ 0 by omega]
  | succ f ih =>
    intro len h
    unfold growLoop
    rw [growStep_zero]
    simp [show ¬ len ≤ 0 by omega, ih len h]

theorem pushDiverges_emptySlice0 (v : GosV) : pushDiverges emptySlice0 v := by
  intro fuel
  unfold SliceObj.push tryGrowVec
  have hc : emptySlice0.cap = 0 := by decide
  have hl : emptySlice0.len = 0 := by decide
  rw [hc, hl]
  simp [growLoop_zero_cap fuel 1 (by omega)]

/-- C6 counterexample: the claim quantifies over **every** slice whose needed
length exceeds its capacity, but for the capacity-0 slice
(`SliceObj::new(0, 0, None)`) a push needs length 1 > capacity 0 and the
backing buffer is never reallocated at all — the growing loop never
terminates, for any amount of fuel. -/
theorem slice_growth_cap0_counterexample :
    emptySlice0.len + 1 > emptySlice0.cap ∧ pushDiverges emptySlice0 0 :=
  ⟨by decide, pushDiverges_emptySlice0 0⟩

/-- C6 (amended): for every slice with current capacity at least 1 whose
needed length exceeds the capacity, `try_grow_vec` reallocates the backing
buffer (fresh allocation identity) with a new capacity obtained by the
doubling / 1.25 loop, which is at least the needed length, and at least twice
the previous capacity when the previous capacity was below the 1024 threshold;
a grow request within the existing capacity returns the slice unchanged — same
backing allocation, no reallocation. -/
theorem slice_growth_policy :
    (∀ (s : SliceObj) (len fuel : Nat), 1 ≤ s.cap → s.cap < len →
      len ≤ s.cap + fuel →
      ∃ s', tryGrowVec fuel s len = some s' ∧
        s'.vecId = s.vecId + 1 ∧
        len ≤ s'.cap ∧
        (s.cap < 1024 → 2 * s.cap ≤ s'.cap)) ∧
    (∀ (s : SliceObj) (len fuel : Nat), len ≤ s.cap →
      tryGrowVec fuel s len = some s) := by
  constructor
  · intro s len fuel hcap hneed hfuel
    obtain ⟨r, hr⟩ := growLoop_terminates fuel s.cap len hcap hfuel
    have hb := growLoop_bounds fuel s.cap len r hr
    refine ⟨⟨0, s.len, r, (s.vec.drop s.begin_).take s.len, s.vecId + 1⟩,
      ?_, rfl, ?_, ?_⟩
    · unfold tryGrowVec
      rw [if_neg (by omega), hr]
      rfl
    · simp only [SliceObj.cap]
      omega
    · intro hsmall
      have := growLoop_at_least_double fuel s.cap len r hneed hsmall hr
      simp only [SliceObj.cap] at this ⊢
      omega
  · intro s len fuel hle
    unfold tryGrowVec
    simp [hle]

/-- A concrete slice of length 2 and capacity 2. -/
def sliceTwoTwo : SliceObj :=
  { begin_ := 0, end_ := 2, softCap := 2, vec := [5, 6], vecId := 0 }

/-- A concrete slice of length 1 and capacity 4. -/
def sliceOneFour : SliceObj :=
  { begin_ := 0, end_ := 1, softCap := 4, vec := [7], vecId := 0 }

/-- A concrete empty slice of capacity 1. -/
def sliceNilOne : SliceObj :=
  { begin_ := 0, end_ := 0, softCap := 1, vec := [], vecId := 0 }

/-- Witness for `slice_growth_policy`: a full slice of capacity 2 grown to
hold 3 elements, and a grow request inside the spare capacity of a slice of
capacity 4. -/
theorem slice_growth_policy_witness :
    (∃ s', tryGrowVec 3 sliceTwoTwo 3 = some s' ∧
      s'.vecId = sliceTwoTwo.vecId + 1 ∧ 3 ≤ s'.cap ∧
      (sliceTwoTwo.cap < 1024 → 2 * sliceTwoTwo.cap ≤ s'.cap)) ∧
    tryGrowVec 0 sliceOneFour 2 = some sliceOneFour := by
  exact ⟨slice_growth_policy.1 sliceTwoTwo 3 3 (by decide) (by decide)
      (by decide),
    slice_growth_policy.2 sliceOneFour 2 0 (by decide)⟩

/-- C10: slice push and append terminate (some fuel, in fact `needed length`
fuel, completes the growing loop) for every slice of capacity at least 1, but
on a slice of capacity 0 — such as one created with length 0 and capacity 0 —
a push or non-trivial append never terminates: the growth loop doubles the
capacity starting from 0, which leaves it 0 forever. -/
theorem push_terminates_iff_positive_cap :
    (∀ (s : SliceObj) (v : GosV), 1 ≤ s.cap →
      ∃ fuel s', s.push fuel v = some s') ∧
    (∀ (s : SliceObj) (vals : List GosV), 1 ≤ s.cap →
      ∃ fuel s', s.appendVals fuel vals = some s') ∧
    (∀ v : GosV, pushDiverges emptySlice0 v) ∧
    appendDiverges emptySlice0 [0] := by
  refine ⟨?_, ?_, pushDiverges_emptySlice0, ?_⟩
  · intro s v hcap
    refine ⟨s.len + 1, ?_⟩
    unfold SliceObj.push tryGrowVec
    by_cases hle : s.len + 1 ≤ s.cap
    · rw [if_pos hle]
      exact ⟨_, rfl⟩
    · obtain ⟨r, hr⟩ :=
        growLoop_terminates (s.len + 1) s.cap (s.len + 1) hcap (by omega)
      rw [if_neg hle, hr]
      exact ⟨_, rfl⟩
  · intro s vals hcap
    refine ⟨s.len + vals.length, ?_⟩
    unfold SliceObj.appendVals tryGrowVec
    by_cases hle : s.len + vals.length ≤ s.cap
    · rw [if_pos hle]
      exact ⟨_, rfl⟩
    · obtain ⟨r, hr⟩ :=
        growLoop_terminates (s.len + vals.length) s.cap (s.len + vals.length)
          hcap (by omega)
      rw [if_neg hle, hr]
      exact ⟨_, rfl⟩
  · intro fuel
    unfold SliceObj.appendVals tryGrowVec
    have hc : emptySlice0.cap = 0 := by decide
    have hl : emptySlice0.len = 0 := by decide
    rw [hc, hl]
    simp [growLoop_zero_cap fuel 1 (by omega)]

/-- Witness for `push_terminates_iff_positive_cap`: a capacity-1 slice accepts
a push, and the capacity-0 slice diverges already at fuel 7. -/
theorem push_terminates_iff_positive_cap_witness :
    (∃ fuel s', SliceObj.push fuel sliceNilOne 9 = some s') ∧
    SliceObj.push 7 emptySlice0 9 = none := by
  exact ⟨push_terminates_iff_positive_cap.1 sliceNilOne 9 (by decide),
    push_terminates_iff_positive_cap.2.2.1 9 7⟩

/-! ## MapObj (`src/vm/src/objects.rs`, lines 193-284)

`MapObj` holds a configured default value and a shared hash table
`Rc<RefCell<GosHashMap>>`, modelled as an association list with at most one
entry per key. -/

structure MapObj where
  defaultVal : GosV
  data : List (GosV × GosV)
  deriving Repr, DecidableEq

/-- Lookup in the underlying table, `self.map.borrow().get(key)`. -/
def MapObj.find (m : MapObj) (key : GosV) : Option GosV :=
  m.data.lookup key

/-- `MapObj::len`: number of entries in the table. -/
def MapObj.size (m : MapObj) : Nat := m.data.length

/-- `HashMap::insert` on the association-list model: replace the entry in
place if the key is present, otherwise add a new entry. -/
def alistInsert (key val : GosV) : List (GosV × GosV) → List (GosV × GosV)
  | [] => [(key, val)]
  | (k, v) :: rest =>
    if key = k then (k, val) :: rest else (k, v) :: alistInsert key val rest

/-- `MapObj::insert` (objects.rs lines 218-224). -/
def MapObj.insertVal (m : MapObj) (key val : GosV) : MapObj :=
  { m with data := alistInsert key val m.data }

/-- `MapObj::get` (objects.rs lines 226-234): look the key up in the table and
clone the stored cell, falling back to the configured default cell when the
key is absent.  The receiver is `&self`: the table is only borrowed. -/
def MapObj.get (m : MapObj) (key : GosV) : GosV :=
  match m.find key with
  | some v => v
  | none => m.defaultVal

/-- `MapObj::touch_key` (objects.rs lines 238-245): insert the default value
if and only if the key has no entry yet. -/
def MapObj.touchKey (m : MapObj) (key : GosV) : MapObj :=
  if (m.find key).isSome then m else m.insertVal key m.defaultVal

/-- The table-facing operations of `MapObj` as state transformers, to state
which of them mutate the table.  `get` only borrows the shared table and
clones a value out of it, so its state component is the receiver itself,
exactly as in the source, where `fn get(&self, ...)` performs no insertion. -/
inductive MapOp
  | insertOp (key val : GosV)
  | getOp (key : GosV)
  | touchOp (key : GosV)
  deriving Repr, DecidableEq

/-- Run one map operation, returning the state after the call and the value
returned to the caller, if any. -/
def MapObj.runOp (m : MapObj) : MapOp → MapObj × Option GosV
  | .insertOp k v => (m.insertVal k v, none)
  | .getOp k => (m, some (m.get k))
  | .touchOp k => (m.touchKey k, none)

/-- C7: `get` on a key with no entry returns the configured default value and
leaves the map unchanged — the state after the call is the receiver itself,
so no entry is inserted for the missing key and the length is unchanged. -/
theorem map_get_missing_default_no_mutation (m : MapObj) (key : GosV)
    (hmiss : m.find key = none) :
    m.get key = m.defaultVal ∧
    (m.runOp (.getOp key)).1 = m ∧
    (m.runOp (.getOp key)).1.find key = none ∧
    (m.runOp (.getOp key)).1.size = m.size := by
  refine ⟨?_, rfl, hmiss, rfl⟩
  unfold MapObj.get
  rw [hmiss]

/-- Witness for `map_get_missing_default_no_mutation` on a one-entry map and
an absent key. -/
theorem map_get_missing_default_no_mutation_witness :
    MapObj.get { defaultVal := 42, data := [(1, 10)] } 2 = 42 ∧
    (MapObj.runOp { defaultVal := 42, data := [(1, 10)] } (.getOp 2)).1
      = { defaultVal := 42, data := [(1, 10)] } ∧
    (MapObj.runOp { defaultVal := 42, data := [(1, 10)] } (.getOp 2)).1.find 2
      = none ∧
    (MapObj.runOp { defaultVal := 42, data := [(1, 10)] } (.getOp 2)).1.size
      = MapObj.size { defaultVal := 42, data := [(1, 10)] } :=
  map_get_missing_default_no_mutation { defaultVal := 42, data := [(1, 10)] } 2
    (by decide)

/-- `impl PartialEq for MapObj` (objects.rs lines 278-282): the body is
`unreachable!()` — evaluating map equality is a hard failure and never
produces a boolean.  The failure is embedded as `none`. -/
def MapObj.eqCheck (_m1 _m2 : MapObj) : Option Bool := none

/-- C8: comparing two map values for equality always fails: for every pair of
maps the comparison aborts (`unreachable!()`) instead of returning a
true/false result. -/
theorem map_equality_always_fails (m1 m2 : MapObj) :
    m1.eqCheck m2 = none ∧ ∀ b : Bool, m1.eqCheck m2 ≠ some b := by
  exact ⟨rfl, fun b h => by cases h⟩

/-! ## UpValue (`src/vm/src/objects.rs`, lines 578-633)

An `UpValue` wraps `Rc<RefCell<UpValueState>>`; the state is either
`Open(ValueDesc)` — pointing into a live frame slot — or `Closed(GosValue)` —
holding its own value. -/

/-- `ValueDesc` (objects.rs lines 579-583): which function owns the variable,
its slot index and its value type (type tags abstracted to `Nat`). -/
structure ValueDesc where
  func : Nat
  index : Int
  typ : Nat
  deriving Repr, DecidableEq

/-- `UpValueState` (objects.rs lines 585-591). -/
inductive UpValueState
  | opened (d : ValueDesc)
  | closed (v : GosV)
  deriving Repr, DecidableEq

def UpValueState.isClosed : UpValueState → Bool
  | .opened _ => false
  | .closed _ => true

/-- The operations of the `UpValue` API that touch the shared state cell
(objects.rs lines 598-622): `close` overwrites the cell with `Closed(val)`;
`desc` and `downgrade`/`upgrade` only read or re-share the cell. -/
inductive UpValueOp
  | closeOp (v : GosV)
  | descOp
  | downgradeOp
  deriving Repr, DecidableEq

/-- Effect of one API call on the state cell.  `close` is the only operation
whose body writes through `borrow_mut`. -/
def UpValueState.step : UpValueState → UpValueOp → UpValueState
  | _, .closeOp v => .closed v
  | s, .descOp => s
  | s, .downgradeOp => s

/-- `UpValue::desc` reads the descriptor and is `unreachable!()` on a closed
upvalue. -/
def UpValueState.descRead : UpValueState → Option ValueDesc
  | .opened d => some d
  | .closed _ => none

/-- C9: the Open → Closed transition is one-way.  `close` always produces a
Closed state, a single API call never takes a Closed state back to Open, and
hence any sequence of API calls starting from a Closed state stays Closed. -/
theorem upvalue_closed_never_reopens :
    (∀ (s : UpValueState) (v : GosV), (s.step (.closeOp v)).isClosed = true) ∧
    (∀ (s : UpValueState) (op : UpValueOp), s.isClosed = true →
      (s.step op).isClosed = true) ∧
    (∀ (ops : List UpValueOp) (s : UpValueState), s.isClosed = true →
      (ops.foldl UpValueState.step s).isClosed = true) := by
  refine ⟨fun s v => rfl, ?_, ?_⟩
  · intro s op hs
    cases op with
    | closeOp v => rfl
    | descOp => exact hs
    | downgradeOp => exact hs
  · intro ops
    induction ops with
    | nil => intro s hs; exact hs
    | cons op rest ih =>
      intro s hs
      apply ih
      cases op with
      | closeOp v => rfl
      | descOp => exact hs
      | downgradeOp => exact hs

/-- Witness for `upvalue_closed_never_reopens`: a concrete closed upvalue run
through a concrete operation sequence. -/
theorem upvalue_closed_never_reopens_witness :
    (UpValueState.step (.closed 3) (.closeOp 5)).isClosed = true ∧
    (UpValueState.step (.closed 3) .descOp).isClosed = true ∧
    (([UpValueOp.descOp, .closeOp 7, .downgradeOp].foldl UpValueState.step
      (.closed 3))).isClosed = true := by
  exact ⟨upvalue_closed_never_reopens.1 (.closed 3) 5,
    upvalue_closed_never_reopens.2.1 (.closed 3) .descOp rfl,
    upvalue_closed_never_reopens.2.2 [.descOp, .closeOp 7, .downgradeOp]
      (.closed 3) rfl⟩

/-! ## Assignment lowering (`src/codegen/src/codegen.rs`, lines 248-684)

`gen_assign` is the single entrance for assign-related statements.  It first
classifies every LHS expression — visiting (evaluating) its base and index
sub-expressions in the process — and then dispatches on the token and the
right-hand side: compound tokens and `++`/`--` go through `gen_op_assign`
(a single fused load-modify-store), plain assignments through
`gen_assign_def_var`.

The embedding records the *emission trace*: each `visit_expr` on a
sub-expression (which leaves one value on the evaluation stack) becomes an
`GEvent.eval` carrying the AST node id, and each emitted store/pop
instruction becomes a trace event.  Interface-boxing casts
(`try_cast_to_iface`) concern none of the claims below and contribute no
event. -/

/-- Value-type tags (`ValueType` lives in the vm crate's instruction table;
only its identity matters here). -/
abbrev ValueTypeTag := Nat

/-- The tag `ValueType::Uint32`, the width shift right-operands are cast to. -/
def valueTypeUint32 : ValueTypeTag := 100

/-- `IndexSelType` (codegen): whether an indexed target is a slice/map
indexing or a struct-field selection. -/
inductive IndexSelType
  | indexing
  | structField
  deriving Repr, DecidableEq

/-- `IndexSelInfo::new(index, imm_index, t1, t2, typ)` as constructed in
`gen_assign`: `index` is the stack position of the target's base (filled in
later by `with_index`), `immIndex` the compile-time-constant index if any,
`t2` the value type of the stack-computed index when one was evaluated. -/
structure IndexSelInfo where
  index : Int
  immIndex : Option Int
  t1 : ValueTypeTag
  t2 : Option ValueTypeTag
  typ : IndexSelType
  deriving Repr, DecidableEq

/-- `IndexSelInfo::with_index`. -/
def IndexSelInfo.withIndex (info : IndexSelInfo) (i : Int) : IndexSelInfo :=
  { info with index := i }

/-- Modelled from the spec: `IndexSelInfo::stack_space` is defined in
`codegen/src/emit.rs`, which is not among the provided sources.  Spec: store
offsets are computed relative to a tracked cumulative auxiliary-slot count of
"2 slots for an Indexed target carrying a secondary index type, else 1;
1 for Dereferenced; 0 for Primitive".  This also matches the bulk-pop
accounting in `gen_assign_def_var` (one slot popped per Indexed target plus
one more if `info.t2` is present). -/
def IndexSelInfo.stackSpace (info : IndexSelInfo) : Int :=
  if info.t2.isSome then 2 else 1

/-- `LeftHandSide` as used by `gen_assign`/`emit_store`: a named slot
(`Primitive`), an indexed/selected element (`IndexSelExpr`), or a pointer
dereference (`Deref`).  The `EntIndex` payload of `Primitive` is abstracted
to an integer. -/
inductive LeftHandSide
  | primitive (idx : Int)
  | indexSelExpr (info : IndexSelInfo)
  | deref (i : Int)
  deriving Repr, DecidableEq

/-- Trace events of the code generator: `eval e` is a `visit_expr` on the
AST node `e` (leaving one value on the evaluation stack); `unwrap`/`cast`
are the named-type unwrap and the uint32 cast emitted for shift right
operands; `store fused target rhsIndex` is an `emit_store` (`fused = true`
when an opcode is attached, i.e. a fused load-modify-store); `pop n` is an
`emit_pop(n)`. -/
inductive GEvent
  | eval (e : Nat)
  | unwrap
  | cast
  | store (fused : Bool) (target : LeftHandSide) (rhsIndex : Int)
  | pop (n : Int)
  deriving Repr, DecidableEq

/-- The assignment-target expression forms handled by the `match expr` in
`gen_assign` (codegen.rs lines 261-354).  Sub-expressions are identified by
their AST node ids; `tcConst` is the type checker's answer to
`get_tc_const_value` for an index expression (already converted to an
`OpIndex`), and the value-type tags are the `get_expr_value_type` answers. -/
inductive LhsAst
  | identE (isDef : Bool)
  | index (obj ind : Nat) (tcConst : Option Int) (objTyp indTyp : ValueTypeTag)
  | selectorPkg (sel : Nat)
  | selectorField (obj : Nat) (fieldIndex : Int) (objTyp : ValueTypeTag)
  | star (inner : Nat)
  deriving Repr, DecidableEq

/-- LHS classification, one arm per `match expr` arm of `gen_assign`:
produces the `LeftHandSide` and the evaluation events performed while
classifying (base first, then — only for a non-constant index — the index
expression). -/
def prepLhs : LhsAst → LeftHandSide × List GEvent
  | .identE _ => (.primitive 0, [])
  | .index obj ind tcConst objTyp indTyp =>
    match tcConst with
    | some c =>
      (.indexSelExpr ⟨0, some c, objTyp, none, .indexing⟩, [.eval obj])
    | none =>
      (.indexSelExpr ⟨0, none, objTyp, some indTyp, .indexing⟩,
        [.eval obj, .eval ind])
  | .selectorPkg _ => (.primitive 0, [])
  | .selectorField obj fieldIndex objTyp =>
    (.indexSelExpr ⟨0, some fieldIndex, objTyp, none, .structField⟩,
      [.eval obj])
  | .star inner => (.deref 0, [.eval inner])

/-- The sub-expressions of a target that `gen_assign` evaluates while
classifying it (its base, and its index unless the index is a compile-time
constant). -/
def lhsEvalIds : LhsAst → List Nat
  | .identE _ => []
  | .index obj ind tcConst _ _ => obj :: (if tcConst.isSome then [] else [ind])
  | .selectorPkg _ => []
  | .selectorField obj _ _ => [obj]
  | .star inner => [inner]

theorem prepLhs_events_eq (l : LhsAst) :
    (prepLhs l).2 = (lhsEvalIds l).map GEvent.eval := by
  cases l with
  | identE d => rfl
  | index obj ind tcConst t1 t2 => cases tcConst <;> rfl
  | selectorPkg s => rfl
  | selectorField obj f t => rfl
  | star inner => rfl

/-- Number of evaluation-stack slots the classified target occupies, per the
`stack_space` accounting. -/
def auxSpace : LeftHandSide → Int
  | .primitive _ => 0
  | .indexSelExpr info => info.stackSpace
  | .deref _ => 1

/-- The auxiliary slots a target actually pushes are its classification-time
evaluations, one stack slot each. -/
def lhsAuxPushes (l : LhsAst) : Nat := (prepLhs l).2.length

/-- The spec-modelled `stack_space` agrees with the number of values
`gen_assign` actually pushes while classifying a target. -/
theorem auxSpace_eq_pushes (l : LhsAst) :
    auxSpace (prepLhs l).1 = lhsAuxPushes l := by
  cases l with
  | identE d => rfl
  | index obj ind tcConst t1 t2 =>
    cases tcConst <;>
      simp [prepLhs, auxSpace, lhsAuxPushes, IndexSelInfo.stackSpace]
  | selectorPkg s => rfl
  | selectorField obj f t => rfl
  | star inner => rfl

/-- `Opcode` — only the arithmetic/logic opcodes used by compound
assignment and the unary opcodes used by `++`/`--`. -/
inductive Opcode
  | add | sub | mul | quo | rem | andB | orB | xorB | shl | shr | andNotB
  | unaryAdd | unarySub
  deriving Repr, DecidableEq

/-- The assignment-statement tokens handled by `gen_assign`. -/
inductive Token
  | inc | dec
  | addAssign | subAssign | mulAssign | quoAssign | remAssign
  | andAssign | orAssign | xorAssign | shlAssign | shrAssign | andNotAssign
  | assign | define
  deriving Repr, DecidableEq

/-- The `simple_op` match of `gen_assign` (codegen.rs lines 368-382):
compound tokens map to their opcode, `=` and `:=` to `None`.  (`++`/`--`
never reach this match; they are dispatched on the `Nothing` right-hand
side first.) -/
def Token.simpleOp : Token → Option Opcode
  | .addAssign => some .add
  | .subAssign => some .sub
  | .mulAssign => some .mul
  | .quoAssign => some .quo
  | .remAssign => some .rem
  | .andAssign => some .andB
  | .orAssign => some .orB
  | .xorAssign => some .xorB
  | .shlAssign => some .shl
  | .shrAssign => some .shr
  | .andNotAssign => some .andNotB
  | _ => none

/-- The `Token::INC`/`Token::DEC` opcode selection of `gen_assign` (lines
358-362); other tokens are unreachable on the `Nothing` right-hand side. -/
def Token.incDecOp : Token → Opcode
  | .dec => .unarySub
  | _ => .unaryAdd

/-- `gen_op_assign` (codegen.rs lines 608-684): evaluate the right operand if
present, unwrap/cast a shift right operand, then emit one store carrying the
opcode (`fused = true`) against the already-evaluated target, and pop the
consumed slots. -/
def genOpAssign (left : LeftHandSide) (opExtra : Option ValueTypeTag)
    (right : Option Nat) (unwrapRight : Bool) : List GEvent :=
  let rhsCount : Int := match right with | some _ => 1 | none => 0
  (match right with | some e => [GEvent.eval e] | none => []) ++
  (match opExtra with
   | some t =>
     (if unwrapRight then [GEvent.unwrap] else []) ++
     (if t ≠ valueTypeUint32 then [GEvent.cast] else [])
   | none => []) ++
  (match left with
   | .primitive p =>
     [GEvent.store true (.primitive p) (-1), GEvent.pop rhsCount]
   | .indexSelExpr info =>
     [GEvent.store true
        (.indexSelExpr (info.withIndex (-info.stackSpace - rhsCount))) (-1),
      GEvent.pop (rhsCount + 1 + (if info.t2.isSome then 1 else 0))]
   | .deref _ =>
     [GEvent.store true (.deref (-1 - rhsCount)) (-1),
      GEvent.pop (1 + rhsCount)])

/-- The store loop of `gen_assign_def_var` (codegen.rs lines 541-586):
targets are stored in source order; `rhsIndex = i - totalRef`; the running
offset `cur` starts at the bottom of the assignment's stack region and — as
written in the source — advances by 2 after **every** `IndexSelExpr` target
("the lhs of IndexSelExpr takes two spots") and by 1 after every `Deref`
target. -/
def storeLoopFrom (totalRef : Int) :
    List LeftHandSide → Nat → Int → List GEvent
  | [], _, _ => []
  | l :: rest, i, cur =>
    let rhsIndex : Int := (i : Int) - totalRef
    match l with
    | .primitive p =>
      GEvent.store false (.primitive p) rhsIndex ::
        storeLoopFrom totalRef rest (i + 1) cur
    | .indexSelExpr info =>
      GEvent.store false (.indexSelExpr (info.withIndex cur)) rhsIndex ::
        storeLoopFrom totalRef rest (i + 1) (cur + 2)
    | .deref _ =>
      GEvent.store false (.deref cur) rhsIndex ::
        storeLoopFrom totalRef rest (i + 1) (cur + 1)

/-- The right-hand-side forms of `gen_assign_def_var` needed by the claims:
an explicit value list of matching arity, or a select receive operand
(whose values are put on the stack by the select runtime, below the
auxiliary target slots). -/
inductive RHSForm
  | values (exprs : List Nat)
  | selectRecv (rhs : Nat) (commaOkMode : Bool)
  deriving Repr, DecidableEq

/-- `gen_assign_def_var` (codegen.rs lines 412-606) on already-classified
targets: evaluate the RHS values (for a value list), store the targets in
source order via the store loop, then emit a single bulk pop of the RHS
values plus all auxiliary slots. -/
def genAssignDefVar (preps : List (LeftHandSide × List GEvent))
    (rhs : RHSForm) : List GEvent :=
  let lefts := preps.map (·.1)
  let rhsEvents := match rhs with
    | .values exprs => exprs.map GEvent.eval
    | .selectRecv _ _ => []
  let totalVal : Int := match rhs with
    | .values exprs => exprs.length
    | .selectRecv _ ok => if preps.length = 2 ∧ ok then 2 else 1
  let totalAux := (lefts.map auxSpace).sum
  let totalStack := totalAux + totalVal
  let lhsOnTop := match rhs with
    | .selectRecv _ _ => true
    | _ => false
  let startCur : Int := -(if lhsOnTop then totalAux else totalStack)
  let totalRef : Int := if lhsOnTop then totalStack else totalVal
  rhsEvents ++ storeLoopFrom totalRef lefts 0 startCur ++
    [GEvent.pop (totalVal + totalAux)]

/-- Per-expression answer of the external type lookup used for shift right
operands (`get_expr_value_type_named`): the value type, and the unwrapped
inner type when the operand is a named-type wrapper. -/
abbrev TypeLookupF := Nat → ValueTypeTag × Option ValueTypeTag

/-- The shift-operand preparation of `gen_assign` (codegen.rs lines 387-394):
for `<<=`/`>>=` the right operand's named wrapper is unwrapped first if
present and the operand is cast to uint32. -/
def shiftInfo (tl : TypeLookupF) (code : Opcode) (r0 : Nat) :
    Option ValueTypeTag × Bool :=
  if code = .shl ∨ code = .shr then
    let p := tl r0
    (some (p.2.getD p.1), p.2.isSome)
  else (none, false)

/-- The right-hand sides `gen_assign` is called with in the claims below. -/
inductive RHS
  | nothing
  | values (exprs : List Nat)
  | selectRecv (rhs : Nat) (commaOkMode : Bool)
  deriving Repr, DecidableEq

/-- `gen_assign` (codegen.rs lines 255-410): classify all LHS targets first
(evaluating their bases/indices left to right), then dispatch: `Nothing`
right-hand side means `++`/`--` (fused store via `gen_op_assign`), a value
list under a compound token goes through `gen_op_assign` with the opcode and
shift metadata, and a plain `=`/`:=` or a select receive goes through
`gen_assign_def_var`. -/
def genAssign (tl : TypeLookupF) (token : Token) (lhsList : List LhsAst)
    (rhs : RHS) : List GEvent :=
  let preps := lhsList.map prepLhs
  let prepEvents := (preps.map (·.2)).flatten
  prepEvents ++
  (match rhs with
   | .nothing =>
     match preps.head? with
     | some p => genOpAssign p.1 none none false
     | none => []
   | .values exprs =>
     match token.simpleOp with
     | some code =>
       match preps.head?, exprs.head? with
       | some p, some r0 =>
         let sh := shiftInfo tl code r0
         genOpAssign p.1 sh.1 (some r0) sh.2
       | _, _ => []
     | none => genAssignDefVar preps (.values exprs)
   | .selectRecv e ok => genAssignDefVar preps (.selectRecv e ok))

/-- Occurrences of `visit_expr` on the node `b` in a trace. -/
def countEval (b : Nat) : List GEvent → Nat
  | [] => 0
  | .eval e :: rest => (if e = b then 1 else 0) + countEval b rest
  | .unwrap :: rest => countEval b rest
  | .cast :: rest => countEval b rest
  | .store _ _ _ :: rest => countEval b rest
  | .pop _ :: rest => countEval b rest

/-- Number of emitted stores in a trace. -/
def storeCount : List GEvent → Nat
  | [] => 0
  | .store _ _ _ :: rest => 1 + storeCount rest
  | _ :: rest => storeCount rest

/-- Number of emitted fused (load-modify-store) stores in a trace. -/
def fusedStoreCount : List GEvent → Nat
  | [] => 0
  | .store true _ _ :: rest => 1 + fusedStoreCount rest
  | .store false _ _ :: rest => fusedStoreCount rest
  | _ :: rest => fusedStoreCount rest

theorem countEval_append (b : Nat) (l1 l2 : List GEvent) :
    countEval b (l1 ++ l2) = countEval b l1 + countEval b l2 := by
  induction l1 with
  | nil => simp [countEval]
  | cons e rest ih => cases e <;> simp [countEval, ih] <;> omega

theorem storeCount_append (l1 l2 : List GEvent) :
    storeCount (l1 ++ l2) = storeCount l1 + storeCount l2 := by
  induction l1 with
  | nil => simp [storeCount]
  | cons e rest ih => cases e <;> simp [storeCount, ih] <;> omega

theorem fusedStoreCount_append (l1 l2 : List GEvent) :
    fusedStoreCount (l1 ++ l2) = fusedStoreCount l1 + fusedStoreCount l2 := by
  induction l1 with
  | nil => simp [fusedStoreCount]
  | cons e rest ih =>
    cases e with
    | store f t r => cases f <;> simp [fusedStoreCount, ih] <;> omega
    | _ => simp [fusedStoreCount, ih]

theorem countEval_map_eval (b : Nat) (ids : List Nat) :
    countEval b (ids.map GEvent.eval) = ids.count b := by
  induction ids with
  | nil => rfl
  | cons i rest ih =>
    simp only [List.map_cons, countEval, ih, List.count_cons]
    by_cases h : i = b
    · subst h; simp; omega
    · simp [h, Ne.symm h]

theorem storeCount_map_eval (ids : List Nat) :
    storeCount (ids.map GEvent.eval) = 0 := by
  induction ids with
  | nil => rfl
  | cons i rest ih => simp [storeCount, ih]

theorem fusedStoreCount_map_eval (ids : List Nat) :
    fusedStoreCount (ids.map GEvent.eval) = 0 := by
  induction ids with
  | nil => rfl
  | cons i rest ih => simp [fusedStoreCount, ih]

/-- `gen_op_assign` evaluates exactly its explicit right operand and nothing
else. -/
theorem countEval_genOpAssign (b : Nat) (left : LeftHandSide)
    (opExtra : Option ValueTypeTag) (right : Option Nat) (uw : Bool) :
    countEval b (genOpAssign left opExtra right uw)
      = match right with
        | some r => if r = b then 1 else 0
        | none => 0 := by
  unfold genOpAssign
  cases right <;> cases opExtra <;> cases uw <;> cases left <;>
    simp [countEval_append, countEval] <;> split <;> simp [countEval]

/-- `gen_op_assign` emits exactly one store. -/
theorem storeCount_genOpAssign (left : LeftHandSide)
    (opExtra : Option ValueTypeTag) (right : Option Nat) (uw : Bool) :
    storeCount (genOpAssign left opExtra right uw) = 1 := by
  unfold genOpAssign
  cases right <;> cases opExtra <;> cases uw <;> cases left <;>
    simp [storeCount_append, storeCount] <;> split <;> simp [storeCount]

/-- The single store `gen_op_assign` emits is fused (carries the opcode). -/
theorem fusedStoreCount_genOpAssign (left : LeftHandSide)
    (opExtra : Option ValueTypeTag) (right : Option Nat) (uw : Bool) :
    fusedStoreCount (genOpAssign left opExtra right uw) = 1 := by
  unfold genOpAssign
  cases right <;> cases opExtra <;> cases uw <;> cases left <;>
    simp [fusedStoreCount_append, fusedStoreCount] <;> split <;>
    simp [fusedStoreCount]

theorem genAssign_compound_eq (tl : TypeLookupF) (token : Token)
    (code : Opcode) (h : token.simpleOp = some code) (l : LhsAst) (r : Nat) :
    genAssign tl token [l] (.values [r])
      = (lhsEvalIds l).map GEvent.eval ++
        genOpAssign (prepLhs l).1 (shiftInfo tl code r).1 (some r)
          (shiftInfo tl code r).2 := by
  unfold genAssign
  simp [h, prepLhs_events_eq]

theorem genAssign_incdec_eq (tl : TypeLookupF) (token : Token) (l : LhsAst) :
    genAssign tl token [l] .nothing
      = (lhsEvalIds l).map GEvent.eval ++
        genOpAssign (prepLhs l).1 none none false := by
  unfold genAssign
  simp [prepLhs_events_eq]

/-- C1: for every compound-assignment token (`+=`, `-=`, `*=`, `/=`, `%=`,
`&=`, `|=`, `^=`, `<<=`, `>>=`, `&^=`) and for `++`/`--`, the generated code
evaluates each of the target's evaluated base/index sub-expressions exactly
once (a compile-time-constant index is folded into the instruction and has no
side effect to duplicate), evaluates the right operand exactly once, and
emits exactly one store, which is fused (it carries the opcode, i.e. a single
load-modify-store against the already-evaluated target).  Hence `T op= w`
behaves as `T = T op w` with every side-effecting sub-expression of `T`'s
base/index executed exactly once. -/
theorem compound_assign_evaluates_lhs_once :
    (∀ (tl : TypeLookupF) (token : Token) (code : Opcode),
      token.simpleOp = some code →
      ∀ (l : LhsAst) (rhsE : Nat), (lhsEvalIds l).Nodup →
        rhsE ∉ lhsEvalIds l →
        (∀ b ∈ lhsEvalIds l,
          countEval b (genAssign tl token [l] (.values [rhsE])) = 1) ∧
        countEval rhsE (genAssign tl token [l] (.values [rhsE])) = 1 ∧
        storeCount (genAssign tl token [l] (.values [rhsE])) = 1 ∧
        fusedStoreCount (genAssign tl token [l] (.values [rhsE])) = 1) ∧
    (∀ (tl : TypeLookupF) (token : Token) (l : LhsAst),
      token = .inc ∨ token = .dec → (lhsEvalIds l).Nodup →
        (∀ b ∈ lhsEvalIds l,
          countEval b (genAssign tl token [l] .nothing) = 1) ∧
        storeCount (genAssign tl token [l] .nothing) = 1 ∧
        fusedStoreCount (genAssign tl token [l] .nothing) = 1) := by
  constructor
  · intro tl token code hcode l rhsE hnd hnotmem
    rw [genAssign_compound_eq tl token code hcode l rhsE]
    refine ⟨?_, ?_, ?_, ?_⟩
    · intro b hb
      rw [countEval_append, countEval_map_eval, countEval_genOpAssign]
      have h1 : (lhsEvalIds l).count b = 1 :=
        List.count_eq_one_of_mem hnd hb
      have h2 : ¬ rhsE = b := fun h => hnotmem (h ▸ hb)
      simp [h1, h2]
    · rw [countEval_append, countEval_map_eval, countEval_genOpAssign]
      have h1 : (lhsEvalIds l).count rhsE = 0 :=
        List.count_eq_zero_of_not_mem hnotmem
      simp [h1]
    · rw [storeCount_append, storeCount_map_eval, storeCount_genOpAssign]
    · rw [fusedStoreCount_append, fusedStoreCount_map_eval,
        fusedStoreCount_genOpAssign]
  · intro tl token l _ hnd
    rw [genAssign_incdec_eq tl token l]
    refine ⟨?_, ?_, ?_⟩
    · intro b hb
      rw [countEval_append, countEval_map_eval, countEval_genOpAssign]
      have h1 : (lhsEvalIds l).count b = 1 :=
        List.count_eq_one_of_mem hnd hb
      simp [h1]
    · rw [storeCount_append, storeCount_map_eval, storeCount_genOpAssign]
    · rw [fusedStoreCount_append, fusedStoreCount_map_eval,
        fusedStoreCount_genOpAssign]

/-- A trivial type-lookup answer for witnesses: every expression has tag 0
and no named wrapper. -/
def tlZero : TypeLookupF := fun _ => (0, none)

/-- Witness for `compound_assign_evaluates_lhs_once`: `a[f()] += w` — an
indexed target with base node 1 and non-constant index node 2 (the `f()`
call), right operand node 3 — and `a[f()]++`. -/
theorem compound_assign_evaluates_lhs_once_witness :
    ((∀ b ∈ lhsEvalIds (.index 1 2 none 0 0),
      countEval b (genAssign tlZero .addAssign [.index 1 2 none 0 0]
        (.values [3])) = 1) ∧
      countEval 3 (genAssign tlZero .addAssign [.index 1 2 none 0 0]
        (.values [3])) = 1 ∧
      storeCount (genAssign tlZero .addAssign [.index 1 2 none 0 0]
        (.values [3])) = 1 ∧
      fusedStoreCount (genAssign tlZero .addAssign [.index 1 2 none 0 0]
        (.values [3])) = 1) ∧
    ((∀ b ∈ lhsEvalIds (.index 1 2 none 0 0),
      countEval b (genAssign tlZero .inc [.index 1 2 none 0 0] .nothing)
        = 1) ∧
      storeCount (genAssign tlZero .inc [.index 1 2 none 0 0] .nothing)
        = 1 ∧
      fusedStoreCount (genAssign tlZero .inc [.index 1 2 none 0 0] .nothing)
        = 1) := by
  exact ⟨compound_assign_evaluates_lhs_once.1 tlZero .addAssign .add
      (by decide) (.index 1 2 none 0 0) 3 (by decide) (by decide),
    compound_assign_evaluates_lhs_once.2 tlZero .inc (.index 1 2 none 0 0)
      (Or.inl rfl) (by decide)⟩

/-! ### Multi-target store offsets (claim C2)

`gen_assign_def_var` stores the targets against stack offsets produced by a
running counter (`current_indexing_deref_index`).  The counter starts at the
bottom of the assignment's stack region — computed with the 2-or-1
`stack_space` accounting — but then advances by a hard-coded 2 after every
`IndexSelExpr` target, even one that occupies a single stack slot (constant
index / struct field, `t2 = None`).  The functions below expose the offsets
the emitted stores use and the offsets at which the targets' base slots
actually sit. -/

/-- The base-slot offset an emitted store addresses: the `with_index` value
for indexed and dereferenced targets, none for named-slot targets. -/
def storedOffset : GEvent → Option (Option Int)
  | .store _ (.indexSelExpr info) _ => some (some info.index)
  | .store _ (.deref i) _ => some (some i)
  | .store _ (.primitive _) _ => some none
  | _ => none

/-- Per target, the stack offset used by the store that `gen_assign` emits
for a plain multi-target assignment. -/
def assignStoreOffsets (lhsList : List LhsAst) (rhsExprs : List Nat) :
    List (Option Int) :=
  (genAssign tlZero .assign lhsList (.values rhsExprs)).filterMap storedOffset

def actualBaseOffsetsAux (total : Int) :
    List LhsAst → Int → List (Option Int)
  | [], _ => []
  | l :: rest, acc =>
    (if lhsAuxPushes l = 0 then none else some (acc - total)) ::
      actualBaseOffsetsAux total rest (acc + lhsAuxPushes l)

/-- Per target, the stack offset at which the target's base value actually
sits when the stores run: the stack region holds, bottom to top, each
target's classification-time pushes in source order followed by the RHS
values, and stores consume no slots, so target `j`'s base lives at
`(pushes of targets before j) - (total region size)` relative to the top. -/
def actualBaseOffsets (lhsList : List LhsAst) (rhsCount : Nat) :
    List (Option Int) :=
  actualBaseOffsetsAux ((lhsList.map lhsAuxPushes).sum + rhsCount) lhsList 0

/-- `s.a, *p = v, w`: a struct-field target (constant member index, one
auxiliary stack slot) followed by a pointer-dereference target. -/
def c2FailingLhs : List LhsAst := [.selectorField 1 0 0, .star 2]

/-- C2 fails on the code: for the two-target assignment `s.a, *p = v, w`
(equally `a[0], a[1] = v, w`), the first Indexed target occupies one stack
slot (no secondary index type), yet the running offset advances by 2, so the
second store is emitted against offset -2 while the dereference target's
pointer actually sits at offset -3.  The emitted store offsets diverge from
the real stack layout — the layout that the region bottom (-4) and the bulk
pop (4 = 2 RHS values + 2 auxiliary slots, leaving net stack depth zero)
are themselves computed from — so the second target does not receive its
RHS value from the intended slot. -/
theorem multi_assign_store_offset_divergence :
    assignStoreOffsets c2FailingLhs [10, 11] = [some (-4), some (-2)] ∧
    actualBaseOffsets c2FailingLhs 2 = [some (-4), some (-3)] ∧
    assignStoreOffsets c2FailingLhs [10, 11]
      ≠ actualBaseOffsets c2FailingLhs 2 ∧
    (c2FailingLhs.map lhsAuxPushes).sum = 2 ∧
    (genAssign tlZero .assign c2FailingLhs (.values [10, 11])).getLast?
      = some (.pop 4) := by
  exact ⟨by decide, by decide, by decide, by decide, by decide⟩

/-! ## Select lowering (`src/codegen/src/codegen.rs`, lines 2118-2220)

`visit_stmt_select` walks the comm clauses twice: first it evaluates every
case's channel operand (and, for sends, the value operand) in source order and
collects the communication descriptors, then it emits the single select
instruction, and then it emits each case's block — a receive clause's
left-hand-side assignment (via `gen_assign` with a `SelectRecv` right-hand
side) followed by the body statements, with a jump to the end after every
block except the syntactically last. -/

/-- Trace events of the select lowering.  `GEvent`s arising from the nested
`gen_assign` call are lifted: evaluations keep their node id, emitted
stores/pops become opaque markers. -/
inductive SEvent
  | eval (e : Nat)
  | selectInstr
  | storeEv
  | popEv
  | otherEv
  | bodyStmt (s : Nat)
  | jump
  deriving Repr, DecidableEq

def liftG : GEvent → SEvent
  | .eval e => .eval e
  | .store _ _ _ => .storeEv
  | .pop _ => .popEv
  | .unwrap => .otherEv
  | .cast => .otherEv

/-- The comm-clause statements of a select case (codegen.rs lines 2152-2180):
a send (channel and value operands), a receive with an assignment (one or two
targets; `commaOk` is the `CommaOk` operand mode of the receive), or a bare
receive expression. -/
inductive CommStmt
  | send (chan val : Nat)
  | assignRecv (lhs : List LhsAst) (chan : Nat) (commaOk : Bool)
  | exprRecv (chan : Nat)
  deriving Repr, DecidableEq

/-- A select case: its comm statement (`none` for the default case) and its
body statements (opaque ids). -/
structure CommClause where
  comm : Option CommStmt
  body : List Nat
  deriving Repr, DecidableEq

/-- Phase 1 of `visit_stmt_select` for one clause: the channel operand of a
receive, or the channel then the value of a send, is visited; the default
clause evaluates nothing. -/
def clauseEvalPhase (c : CommClause) : List SEvent :=
  match c.comm with
  | some (.send chan val) => [.eval chan, .eval val]
  | some (.assignRecv _ chan _) => [.eval chan]
  | some (.exprRecv chan) => [.eval chan]
  | none => []

/-- The operand node ids of a clause, in evaluation order. -/
def clauseOperandIds (c : CommClause) : List Nat :=
  match c.comm with
  | some (.send chan val) => [chan, val]
  | some (.assignRecv _ chan _) => [chan]
  | some (.exprRecv chan) => [chan]
  | none => []

theorem clauseEvalPhase_eq (c : CommClause) :
    clauseEvalPhase c = (clauseOperandIds c).map SEvent.eval := by
  cases c with
  | mk comm body =>
    cases comm with
    | none => rfl
    | some s => cases s <;> rfl

/-- The receive-assignment targets of a clause (empty for non-receive
clauses). -/
def recvTargets (c : CommClause) : List LhsAst :=
  match c.comm with
  | some (.assignRecv lhs _ _) => lhs
  | _ => []

/-- The node ids evaluated by the receive clause's left-hand-side
classification (bases and non-constant indices of its targets). -/
def recvLhsIds (c : CommClause) : List Nat :=
  ((recvTargets c).map lhsEvalIds).flatten

/-- All node ids a clause evaluates anywhere in the lowering. -/
def clauseIds (c : CommClause) : List Nat :=
  clauseOperandIds c ++ recvLhsIds c

/-- The receive-assignment emission inside a chosen case's block: `gen_assign`
against the already-evaluated channel operand, with the LHS classified (and
its sub-expressions evaluated) only here.  The assignment token of a receive
clause is `=`/`:=`, which takes the plain `gen_assign_def_var` path, so the
trace does not depend on the token or on the shift type lookup. -/
def recvAssignTrace (c : CommClause) : List SEvent :=
  match c.comm with
  | some (.assignRecv lhs chan ok) =>
    (genAssign tlZero .assign lhs (.selectRecv chan ok)).map liftG
  | _ => []

/-- One case block of phase 2: the receive assignment (if any), the body
statements, and — except for the syntactically last case — a jump to the end
of the select. -/
def selectSegment (isLast : Bool) (c : CommClause) : List SEvent :=
  recvAssignTrace c ++ c.body.map SEvent.bodyStmt ++
    (if isLast then [] else [.jump])

def selectSegmentsAux (lastIdx : Nat) :
    List CommClause → Nat → List (List SEvent)
  | [], _ => []
  | c :: rest, i =>
    selectSegment (i = lastIdx) c :: selectSegmentsAux lastIdx rest (i + 1)

/-- `visit_stmt_select`: phase 1 evaluates every case's operands in source
order, then the single select instruction is emitted, then the case blocks
follow in source order. -/
def visitStmtSelect (cls : List CommClause) : List SEvent :=
  (cls.map clauseEvalPhase).flatten ++ [SEvent.selectInstr] ++
    (selectSegmentsAux (cls.length - 1) cls 0).flatten

/-- Occurrences of `visit_expr` on node `b` in a select trace. -/
def countEvalS (b : Nat) : List SEvent → Nat
  | [] => 0
  | .eval e :: rest => (if e = b then 1 else 0) + countEvalS b rest
  | _ :: rest => countEvalS b rest

/-- Number of jumps in a select trace. -/
def countJumpS : List SEvent → Nat
  | [] => 0
  | .jump :: rest => 1 + countJumpS rest
  | _ :: rest => countJumpS rest

/-- Number of emitted stores in a select trace. -/
def countStoreS : List SEvent → Nat
  | [] => 0
  | .storeEv :: rest => 1 + countStoreS rest
  | _ :: rest => countStoreS rest

theorem countEvalS_append (b : Nat) (l1 l2 : List SEvent) :
    countEvalS b (l1 ++ l2) = countEvalS b l1 + countEvalS b l2 := by
  induction l1 with
  | nil => simp [countEvalS]
  | cons e rest ih => cases e <;> simp [countEvalS, ih] <;> omega

theorem countJumpS_append (l1 l2 : List SEvent) :
    countJumpS (l1 ++ l2) = countJumpS l1 + countJumpS l2 := by
  induction l1 with
  | nil => simp [countJumpS]
  | cons e rest ih => cases e <;> simp [countJumpS, ih] <;> omega

theorem countStoreS_append (l1 l2 : List SEvent) :
    countStoreS (l1 ++ l2) = countStoreS l1 + countStoreS l2 := by
  induction l1 with
  | nil => simp [countStoreS]
  | cons e rest ih => cases e <;> simp [countStoreS, ih] <;> omega

theorem countEvalS_map_eval (b : Nat) (ids : List Nat) :
    countEvalS b (ids.map SEvent.eval) = ids.count b := by
  induction ids with
  | nil => rfl
  | cons i rest ih =>
    simp only [List.map_cons, countEvalS, ih, List.count_cons]
    by_cases h : i = b
    · subst h; simp; omega
    · simp [h, Ne.symm h]

theorem countEvalS_map_bodyStmt (b : Nat) (ids : List Nat) :
    countEvalS b (ids.map SEvent.bodyStmt) = 0 := by
  induction ids with
  | nil => rfl
  | cons i rest ih => simp [countEvalS, ih]

theorem countEvalS_liftG (b : Nat) (l : List GEvent) :
    countEvalS b (l.map liftG) = countEval b l := by
  induction l with
  | nil => rfl
  | cons e rest ih => cases e <;> simp [liftG, countEvalS, countEval, ih]

theorem countJumpS_liftG (l : List GEvent) :
    countJumpS (l.map liftG) = 0 := by
  induction l with
  | nil => rfl
  | cons e rest ih => cases e <;> simp [liftG, countJumpS, ih]

theorem countStoreS_liftG (l : List GEvent) :
    countStoreS (l.map liftG) = storeCount l := by
  induction l with
  | nil => rfl
  | cons e rest ih => cases e <;> simp [liftG, countStoreS, storeCount, ih]

theorem countEval_storeLoopFrom (b : Nat) (totalRef : Int)
    (lefts : List LeftHandSide) : ∀ (i : Nat) (cur : Int),
    countEval b (storeLoopFrom totalRef lefts i cur) = 0 := by
  induction lefts with
  | nil => intro i cur; rfl
  | cons l rest ih =>
    intro i cur
    cases l <;> simp [storeLoopFrom, countEval, ih]

theorem storeCount_storeLoopFrom (totalRef : Int)
    (lefts : List LeftHandSide) : ∀ (i : Nat) (cur : Int),
    storeCount (storeLoopFrom totalRef lefts i cur) = lefts.length := by
  induction lefts with
  | nil => intro i cur; rfl
  | cons l rest ih =>
    intro i cur
    cases l <;> simp [storeLoopFrom, storeCount, ih] <;> omega

theorem countEval_prepEvents (b : Nat) (lhs : List LhsAst) :
    countEval b (((lhs.map prepLhs).map (·.2)).flatten)
      = ((lhs.map lhsEvalIds).flatten).count b := by
  induction lhs with
  | nil => rfl
  | cons l rest ih =>
    simp only [List.map_cons, List.flatten_cons, countEval_append, ih,
      List.count_append, prepLhs_events_eq, countEval_map_eval]

theorem countEval_genAssign_selectRecv (b : Nat) (tl : TypeLookupF)
    (token : Token) (lhs : List LhsAst) (chan : Nat) (ok : Bool) :
    countEval b (genAssign tl token lhs (.selectRecv chan ok))
      = ((lhs.map lhsEvalIds).flatten).count b := by
  have hp := countEval_prepEvents b lhs
  rw [List.map_map] at hp
  unfold genAssign genAssignDefVar
  simp [countEval_append, countEval, countEval_storeLoopFrom, hp]

theorem storeCount_genAssign_selectRecv (tl : TypeLookupF) (token : Token)
    (lhs : List LhsAst) (chan : Nat) (ok : Bool) :
    storeCount (genAssign tl token lhs (.selectRecv chan ok))
      = lhs.length := by
  have hprep : storeCount (((lhs.map prepLhs).map (·.2)).flatten) = 0 := by
    induction lhs with
    | nil => rfl
    | cons l rest ih =>
      simp only [List.map_cons, List.flatten_cons, storeCount_append, ih,
        prepLhs_events_eq, storeCount_map_eval]
  rw [List.map_map] at hprep
  unfold genAssign genAssignDefVar
  simp [storeCount_append, storeCount, storeCount_storeLoopFrom, hprep]

theorem countEvalS_segment (b : Nat) (isLast : Bool) (c : CommClause) :
    countEvalS b (selectSegment isLast c) = (recvLhsIds c).count b := by
  unfold selectSegment recvAssignTrace recvLhsIds recvTargets
  cases hc : c.comm with
  | none =>
    cases isLast <;>
      simp [countEvalS_append, countEvalS, countEvalS_map_bodyStmt]
  | some s =>
    cases s with
    | send chan val =>
      cases isLast <;>
        simp [countEvalS_append, countEvalS, countEvalS_map_bodyStmt]
    | exprRecv chan =>
      cases isLast <;>
        simp [countEvalS_append, countEvalS, countEvalS_map_bodyStmt]
    | assignRecv lhs chan ok =>
      cases isLast <;>
        simp [countEvalS_append, countEvalS, countEvalS_map_bodyStmt,
          countEvalS_liftG, countEval_genAssign_selectRecv]

theorem countStoreS_segment (isLast : Bool) (c : CommClause) :
    countStoreS (selectSegment isLast c) = (recvTargets c).length := by
  unfold selectSegment recvAssignTrace recvTargets
  cases hc : c.comm with
  | none =>
    cases isLast <;> simp [countStoreS_append, countStoreS]
    all_goals
      induction c.body with
      | nil => rfl
      | cons s rest ih => simp [countStoreS, ih]
  | some s =>
    cases s with
    | send chan val =>
      cases isLast <;> simp [countStoreS_append, countStoreS]
      all_goals
        induction c.body with
        | nil => rfl
        | cons s rest ih => simp [countStoreS, ih]
    | exprRecv chan =>
      cases isLast <;> simp [countStoreS_append, countStoreS]
      all_goals
        induction c.body with
        | nil => rfl
        | cons s rest ih => simp [countStoreS, ih]
    | assignRecv lhs chan ok =>
      have hbody : countStoreS (c.body.map SEvent.bodyStmt) = 0 := by
        induction c.body with
        | nil => rfl
        | cons s rest ih => simp [countStoreS, ih]
      cases isLast <;>
        simp [countStoreS_append, countStoreS, hbody, countStoreS_liftG,
          storeCount_genAssign_selectRecv]

theorem countEvalS_segments (b : Nat) (lastIdx : Nat)
    (cls : List CommClause) : ∀ i : Nat,
    countEvalS b ((selectSegmentsAux lastIdx cls i).flatten)
      = ((cls.map recvLhsIds).flatten).count b := by
  induction cls with
  | nil => intro i; rfl
  | cons c rest ih =>
    intro i
    simp only [selectSegmentsAux, List.flatten_cons, countEvalS_append,
      List.map_cons, List.count_append, ih, countEvalS_segment]

theorem countEvalS_evalPhase (b : Nat) (cls : List CommClause) :
    countEvalS b ((cls.map clauseEvalPhase).flatten)
      = ((cls.map clauseOperandIds).flatten).count b := by
  induction cls with
  | nil => rfl
  | cons c rest ih =>
    simp only [List.map_cons, List.flatten_cons, countEvalS_append, ih,
      List.count_append, clauseEvalPhase_eq, countEvalS_map_eval]

theorem count_flatten_split (b : Nat) (cls : List CommClause)
    (f g : CommClause → List Nat) :
    ((cls.map fun c => f c ++ g c).flatten).count b
      = ((cls.map f).flatten).count b + ((cls.map g).flatten).count b := by
  induction cls with
  | nil => rfl
  | cons c rest ih =>
    simp only [List.map_cons, List.flatten_cons, List.count_append, ih]
    omega

theorem selectSegmentsAux_getElem (lastIdx : Nat) (cls : List CommClause) :
    ∀ (i j : Nat) (c : CommClause), cls[j]? = some c →
    (selectSegmentsAux lastIdx cls i)[j]?
      = some (selectSegment (i + j = lastIdx) c) := by
  induction cls with
  | nil => intro i j c h; simp at h
  | cons c0 rest ih =>
    intro i j c h
    cases j with
    | zero =>
      simp at h
      subst h
      simp [selectSegmentsAux]
    | succ j' =>
      simp at h
      have := ih (i + 1) j' c h
      simpa [selectSegmentsAux, Nat.add_assoc, Nat.add_comm 1 j'] using this

/-- Disjointness of clause id lists, from global nodup. -/
theorem clauseIds_disjoint (cls : List CommClause)
    (hnd : ((cls.map clauseIds).flatten).Nodup)
    (j j' : Nat) (c c' : CommClause) (hj : cls[j]? = some c)
    (hj' : cls[j']? = some c') (hne : j ≠ j') (e : Nat)
    (he : e ∈ clauseIds c) : e ∉ clauseIds c' := by
  have hpair := (List.nodup_flatten.mp hnd).2
  obtain ⟨hjlt, hjc⟩ := List.getElem?_eq_some.mp hj
  obtain ⟨hj'lt, hjc'⟩ := List.getElem?_eq_some.mp hj'
  have hjm : j < (cls.map clauseIds).length := by simpa using hjlt
  have hj'm : j' < (cls.map clauseIds).length := by simpa using hj'lt
  have hmj : (cls.map clauseIds)[j] = clauseIds c := by
    rw [List.getElem_map, hjc]
  have hmj' : (cls.map clauseIds)[j'] = clauseIds c' := by
    rw [List.getElem_map, hjc']
  rcases Nat.lt_or_ge j j' with hlt | hge
  · have hd := List.pairwise_iff_getElem.mp hpair j j' hjm hj'm hlt
    rw [hmj, hmj'] at hd
    exact hd he
  · have hlt' : j' < j := lt_of_le_of_ne hge (Ne.symm hne)
    have hd := List.pairwise_iff_getElem.mp hpair j' j hj'm hjm hlt'
    rw [hmj, hmj'] at hd
    exact fun hmem => hd hmem he

theorem mem_clauseIds_flatten (cls : List CommClause) (j : Nat)
    (c : CommClause) (hj : cls[j]? = some c) (e : Nat)
    (he : e ∈ clauseIds c) : e ∈ (cls.map clauseIds).flatten := by
  obtain ⟨hjlt, hjc⟩ := List.getElem?_eq_some.mp hj
  refine List.mem_flatten.mpr ⟨clauseIds c, ?_, he⟩
  refine List.mem_map.mpr ⟨c, ?_, rfl⟩
  exact hjc ▸ List.getElem_mem hjlt

theorem memC_of_getElem (cls : List CommClause) (j : Nat) (c : CommClause)
    (hj : cls[j]? = some c) : c ∈ cls := by
  obtain ⟨hjlt, hjc⟩ := List.getElem?_eq_some.mp hj
  exact hjc ▸ List.getElem_mem hjlt

theorem mem_flatten_of_getElem (f : CommClause → List Nat)
    (cls : List CommClause) (j : Nat) (c : CommClause)
    (hj : cls[j]? = some c) (e : Nat) (he : e ∈ f c) :
    e ∈ (cls.map f).flatten :=
  List.mem_flatten.mpr ⟨f c,
    List.mem_map.mpr ⟨c, memC_of_getElem cls j c hj, rfl⟩, he⟩

theorem selectSegmentsAux_length (lastIdx : Nat) (cls : List CommClause) :
    ∀ i : Nat, (selectSegmentsAux lastIdx cls i).length = cls.length := by
  induction cls with
  | nil => intro i; rfl
  | cons c rest ih => intro i; simp [selectSegmentsAux, ih]

theorem countJumpS_map_bodyStmt (ids : List Nat) :
    countJumpS (ids.map SEvent.bodyStmt) = 0 := by
  induction ids with
  | nil => rfl
  | cons i rest ih => simp [countJumpS, ih]

theorem countJumpS_segment_last (c : CommClause) :
    countJumpS (selectSegment true c) = 0 := by
  unfold selectSegment recvAssignTrace
  cases hc : c.comm with
  | none => simp [countJumpS_append, countJumpS, countJumpS_map_bodyStmt]
  | some s =>
    cases s <;>
      simp [countJumpS_append, countJumpS, countJumpS_map_bodyStmt,
        countJumpS_liftG]

/-- C3: for every select statement, (i) the trace is the operand-evaluation
phase, then the single select instruction, then the case blocks in source
order; (ii) each case's channel/value operand is evaluated exactly once, in
the phase preceding the select instruction and never inside any case block,
regardless of which case runs; (iii) every case block except the
syntactically last ends with a jump to the end of the select, and the last
has no jump; (iv) a case block contains exactly one store per
receive-assignment target (none for non-receive cases); (v) the evaluations
belonging to a receive clause's left-hand side happen only inside that
clause's own case block — never in the operand phase and never in another
case's block — so only the chosen case's receive assignment executes. -/
theorem select_operands_once_and_guarded_recv
    (cls : List CommClause)
    (hnd : ((cls.map clauseIds).flatten).Nodup) :
    visitStmtSelect cls
      = (cls.map clauseEvalPhase).flatten ++ [SEvent.selectInstr] ++
        (selectSegmentsAux (cls.length - 1) cls 0).flatten ∧
    (∀ (j : Nat) (c : CommClause), cls[j]? = some c →
      ∀ e ∈ clauseOperandIds c,
      countEvalS e ((cls.map clauseEvalPhase).flatten) = 1 ∧
      countEvalS e ((selectSegmentsAux (cls.length - 1) cls 0).flatten)
        = 0 ∧
      countEvalS e (visitStmtSelect cls) = 1) ∧
    (∀ (j : Nat) (seg : List SEvent),
      (selectSegmentsAux (cls.length - 1) cls 0)[j]? = some seg →
      (j < cls.length - 1 → seg.getLast? = some SEvent.jump) ∧
      (j = cls.length - 1 → countJumpS seg = 0)) ∧
    (∀ (j : Nat) (c : CommClause), cls[j]? = some c →
      countStoreS (selectSegment (j = cls.length - 1) c)
        = (recvTargets c).length) ∧
    (∀ (j : Nat) (c : CommClause), cls[j]? = some c →
      ∀ e ∈ recvLhsIds c,
      countEvalS e ((cls.map clauseEvalPhase).flatten) = 0 ∧
      countEvalS e (selectSegment (j = cls.length - 1) c) = 1 ∧
      (∀ (j' : Nat) (c' : CommClause), cls[j']? = some c' → j' ≠ j →
        countEvalS e (selectSegment (j' = cls.length - 1) c') = 0)) := by
  have hsplit : ∀ e : Nat,
      ((cls.map clauseIds).flatten).count e
        = ((cls.map clauseOperandIds).flatten).count e
          + ((cls.map recvLhsIds).flatten).count e := by
    intro e
    have h := count_flatten_split e cls clauseOperandIds recvLhsIds
    exact h
  refine ⟨rfl, ?_, ?_, ?_, ?_⟩
  · intro j c hj e he
    have hmem : e ∈ clauseIds c := List.mem_append_left _ he
    have h1 : ((cls.map clauseIds).flatten).count e = 1 :=
      List.count_eq_one_of_mem hnd (mem_clauseIds_flatten cls j c hj e hmem)
    have hge : 1 ≤ ((cls.map clauseOperandIds).flatten).count e :=
      List.one_le_count_iff.mpr
        (mem_flatten_of_getElem clauseOperandIds cls j c hj e he)
    have hs := hsplit e
    have hA : ((cls.map clauseOperandIds).flatten).count e = 1 := by omega
    have hB : ((cls.map recvLhsIds).flatten).count e = 0 := by omega
    refine ⟨?_, ?_, ?_⟩
    · rw [countEvalS_evalPhase, hA]
    · rw [countEvalS_segments, hB]
    · unfold visitStmtSelect
      rw [countEvalS_append, countEvalS_append, countEvalS_evalPhase, hA,
        countEvalS_segments, hB]
      rfl
  · intro j seg hseg
    have hjlt : j < cls.length := by
      obtain ⟨hlt0, -⟩ := List.getElem?_eq_some.mp hseg
      have hlen := selectSegmentsAux_length (cls.length - 1) cls 0
      omega
    have hc : cls[j]? = some cls[j] := List.getElem?_eq_getElem hjlt
    have hseg' := selectSegmentsAux_getElem (cls.length - 1) cls 0 j cls[j] hc
    rw [hseg] at hseg'
    have hseq : seg = selectSegment (0 + j = cls.length - 1) cls[j] :=
      (Option.some.injEq _ _).mp hseg'.symm |>.symm
    constructor
    · intro hlt
      have hne : ¬ (0 + j = cls.length - 1) := by omega
      rw [hseq]
      unfold selectSegment
      simp only [decide_eq_false hne, if_neg]
      rw [List.append_assoc]
      simp [List.getLast?_concat]
    · intro heq
      have heq' : (0 + j = cls.length - 1) := by omega
      rw [hseq]
      have : decide (0 + j = cls.length - 1) = true := decide_eq_true heq'
      rw [this]
      exact countJumpS_segment_last cls[j]
  · intro j c hj
    exact countStoreS_segment _ c
  · intro j c hj e he
    have hmem : e ∈ clauseIds c := List.mem_append_right _ he
    have h1 : ((cls.map clauseIds).flatten).count e = 1 :=
      List.count_eq_one_of_mem hnd (mem_clauseIds_flatten cls j c hj e hmem)
    have hge : 1 ≤ ((cls.map recvLhsIds).flatten).count e :=
      List.one_le_count_iff.mpr
        (mem_flatten_of_getElem recvLhsIds cls j c hj e he)
    have hs := hsplit e
    have hA : ((cls.map clauseOperandIds).flatten).count e = 0 := by omega
    refine ⟨?_, ?_, ?_⟩
    · rw [countEvalS_evalPhase, hA]
    · rw [countEvalS_segment]
      have hcnodup : (clauseIds c).Nodup := by
        have := (List.nodup_flatten.mp hnd).1
        exact this (clauseIds c)
          (List.mem_map.mpr ⟨c, memC_of_getElem cls j c hj, rfl⟩)
      have : (recvLhsIds c).Nodup := hcnodup.of_append_right
      exact List.count_eq_one_of_mem this he
    · intro j' c' hj' hne
      rw [countEvalS_segment]
      have hdis := clauseIds_disjoint cls hnd j j' c c' hj hj'
        (Ne.symm hne) e hmem
      have : e ∉ recvLhsIds c' := fun hmem' =>
        hdis (List.mem_append_right _ hmem')
      exact List.count_eq_zero_of_not_mem this

/-- A concrete send case: `case ch <- v:` with channel node 1, value node 2,
body statement 100. -/
def selClauseSend : CommClause := { comm := some (.send 1 2), body := [100] }

/-- A concrete receive case: `case x[i] = <-ch2:` with an indexed target
(base node 3, non-constant index node 4), channel node 5, body statement
101. -/
def selClauseRecv : CommClause :=
  { comm := some (.assignRecv [.index 3 4 none 0 0] 5 false), body := [101] }

def selClauses : List CommClause := [selClauseSend, selClauseRecv]

/-- Witness for `select_operands_once_and_guarded_recv` on the concrete
two-case select. -/
theorem select_operands_once_and_guarded_recv_witness :
    countEvalS 1 (visitStmtSelect selClauses) = 1 ∧
    countEvalS 5 (visitStmtSelect selClauses) = 1 ∧
    countEvalS 3 ((selClauses.map clauseEvalPhase).flatten) = 0 ∧
    countEvalS 3 (selectSegment (1 = selClauses.length - 1) selClauseRecv)
      = 1 ∧
    countStoreS (selectSegment (1 = selClauses.length - 1) selClauseRecv)
      = (recvTargets selClauseRecv).length := by
  have h := select_operands_once_and_guarded_recv selClauses (by decide)
  exact ⟨(h.2.1 0 selClauseSend rfl 1 (by decide)).2.2,
    (h.2.1 1 selClauseRecv rfl 5 (by decide)).2.2,
    (h.2.2.2.2 1 selClauseRecv rfl 3 (by decide)).1,
    (h.2.2.2.2 1 selClauseRecv rfl 3 (by decide)).2.1,
    h.2.2.2.1 1 selClauseRecv rfl⟩

/-! ## Identifier resolution (`src/codegen/src/codegen.rs`, lines 155-187)

`resolve_var_ident` resolves an identifier use in three tiers: the current
function's entity table, then an upvalue search across the enclosing function
frames, then a package-member fallback. -/

/-- `EntIndex` as used by `resolve_var_ident`: entries of a function's entity
table (consts, locals, previously-registered upvalues) plus the
package-member result form `EntIndex::PackageMember(pkg_key, ident)`. -/
inductive EntIdx
  | constIdx (i : Int)
  | localVar (i : Int)
  | upValue (i : Int)
  | pkgMember (pkg ident : Nat)
  deriving Repr, DecidableEq

/-- `From<EntIndex> for OpIndex` — the `.into()` conversion applied to the
found table entry.  (`PackageMember` is `unreachable!()` there and never
stored in an entity table.) -/
def EntIdx.toOp : EntIdx → Int
  | .constIdx i => i
  | .localVar i => i
  | .upValue i => i
  | .pkgMember _ _ => 0

/-- The upvalue descriptor as constructed at the `resolve_var_ident` call
site: `ValueDesc::new(owning function, slot index, value type, is-local
flag)`; the provided objects.rs shows the three core fields, the is-local
flag is the fourth argument of the call, passed as `true`. -/
structure ValueDescG where
  func : Nat
  index : Int
  typ : Nat
  isLocal : Bool
  deriving Repr, DecidableEq

/-- A function frame: its entity table and its registered upvalue
descriptors (`FunctionVal::entities` / `up_ptrs`). -/
structure FuncFrame where
  entities : List (Nat × EntIdx)
  upPtrs : List ValueDescG
  deriving Repr, DecidableEq

/-- `FunctionVal::entity_index`. -/
def FuncFrame.entityIndex (f : FuncFrame) (k : Nat) : Option EntIdx :=
  f.entities.lookup k

/-- `FunctionVal::try_add_upvalue` (objects.rs lines 943-955): return the
existing entry for the entity if there is one, otherwise push the descriptor
onto `up_ptrs` and register the fresh upvalue index under the entity key. -/
def FuncFrame.tryAddUpvalue (f : FuncFrame) (k : Nat) (uv : ValueDescG) :
    EntIdx × FuncFrame :=
  match f.entityIndex k with
  | some x => (x, f)
  | none =>
    (.upValue (f.upPtrs.length : Int),
      { entities := f.entities ++ [(k, .upValue (f.upPtrs.length : Int))],
        upPtrs := f.upPtrs ++ [uv] })

/-- The enclosing-frame search order of `resolve_var_ident`:
`func_stack.iter().skip(1).rev().skip(1)` — drop the outermost
package-constructor frame, then walk from the top of the stack downwards,
dropping the current frame itself: innermost enclosing frame first. -/
def searchOrder (funcStack : List Nat) : List Nat :=
  ((funcStack.drop 1).reverse).drop 1

/-- `resolve_var_ident` (codegen.rs lines 155-187).  `funcs` is the function
table, `funcStack` the stack of function keys (package constructor at the
bottom, current function on top), `entityKey` the identifier's unique object
key, `identId` the identifier node and `useTyp` its value type.  Returns the
resolved index together with the updated current frame when an upvalue
descriptor was registered. -/
def resolveVarIdent (funcs : Nat → FuncFrame) (funcStack : List Nat)
    (pkgKey : Nat) (entityKey : Nat) (identId : Nat) (useTyp : Nat) :
    EntIdx × Option (Nat × FuncFrame) :=
  match funcStack.getLast? with
  | none => (.pkgMember pkgKey identId, none)
  | some cur =>
    match (funcs cur).entityIndex entityKey with
    | some idx => (idx, none)
    | none =>
      match (searchOrder funcStack).findSome? (fun ifunc =>
        ((funcs ifunc).entityIndex entityKey).map (fun ind =>
          ValueDescG.mk ifunc ind.toOp useTyp true)) with
      | some uv =>
        let r := (funcs cur).tryAddUpvalue entityKey uv
        (r.1, some (cur, r.2))
      | none => (.pkgMember pkgKey identId, none)

theorem findSome?_first {α β : Type} (f : α → Option β) :
    ∀ (l : List α) (k : Nat) (x : α) (y : β),
      (∀ (m : Nat) (hm : m < l.length), m < k → f l[m] = none) →
      l[k]? = some x → f x = some y → l.findSome? f = some y := by
  intro l
  induction l with
  | nil => intro k x y h hk hf; simp at hk
  | cons a rest ih =>
    intro k x y h hk hf
    cases k with
    | zero =>
      simp at hk
      subst hk
      simp [List.findSome?_cons, hf]
    | succ k' =>
      have ha : f a = none := h 0 (by simp) (by omega)
      rw [show (a :: rest).findSome? f = rest.findSome? f by
        simp [List.findSome?_cons, ha]]
      refine ih k' x y ?_ (by simpa using hk) hf
      intro m hm hlt
      have := h (m + 1) (by simpa using Nat.succ_lt_succ hm)
        (by omega)
      simpa using this

theorem findSome?_all_none {α β : Type} (f : α → Option β) :
    ∀ (l : List α), (∀ x ∈ l, f x = none) → l.findSome? f = none := by
  intro l
  induction l with
  | nil => intro h; rfl
  | cons a rest ih =>
    intro h
    have ha : f a = none := h a (by simp)
    rw [show (a :: rest).findSome? f = rest.findSome? f by
      simp [List.findSome?_cons, ha]]
    exact ih (fun x hx => h x (by simp [hx]))

/-- C5: identifier resolution proceeds in exactly the three-tier order of
`resolve_var_ident`: (1) a hit in the current function's entity table is
returned as-is with nothing registered; (2) otherwise the enclosing frames —
package constructor and current frame excluded — are searched innermost
first, and the first frame holding the identifier (as a local, const or
previously-registered upvalue entry) yields a freshly registered upvalue
descriptor (owning function, slot, value type, is-local flag `true`) in the
requesting function; (3) otherwise the identifier resolves to a package
member and nothing is registered. -/
theorem resolve_var_ident_three_tier (funcs : Nat → FuncFrame)
    (funcStack : List Nat) (pkg key ident typ cur : Nat)
    (hcur : funcStack.getLast? = some cur) :
    (∀ idx, (funcs cur).entityIndex key = some idx →
      resolveVarIdent funcs funcStack pkg key ident typ = (idx, none)) ∧
    ((funcs cur).entityIndex key = none →
      ∀ (k : Nat) (fowner : Nat) (slot : EntIdx),
      (∀ (m : Nat) (hm : m < (searchOrder funcStack).length), m < k →
        (funcs (searchOrder funcStack)[m]).entityIndex key = none) →
      (searchOrder funcStack)[k]? = some fowner →
      (funcs fowner).entityIndex key = some slot →
      resolveVarIdent funcs funcStack pkg key ident typ
        = (.upValue ((funcs cur).upPtrs.length : Int),
           some (cur,
             { entities := (funcs cur).entities
                 ++ [(key, .upValue ((funcs cur).upPtrs.length : Int))],
               upPtrs := (funcs cur).upPtrs
                 ++ [⟨fowner, slot.toOp, typ, true⟩] }))) ∧
    ((funcs cur).entityIndex key = none →
      (∀ g ∈ searchOrder funcStack, (funcs g).entityIndex key = none) →
      resolveVarIdent funcs funcStack pkg key ident typ
        = (.pkgMember pkg ident, none)) := by
  refine ⟨?_, ?_, ?_⟩
  · intro idx hidx
    unfold resolveVarIdent
    rw [hcur]
    dsimp only
    rw [hidx]
  · intro hmiss k fowner slot hbefore hk hslot
    have hfind : (searchOrder funcStack).findSome? (fun ifunc =>
        ((funcs ifunc).entityIndex key).map (fun ind =>
          ValueDescG.mk ifunc ind.toOp typ true))
        = some (ValueDescG.mk fowner slot.toOp typ true) := by
      refine findSome?_first _ (searchOrder funcStack) k fowner _ ?_ hk ?_
      · intro m hm hlt
        rw [hbefore m hm hlt]
        rfl
      · rw [hslot]
        rfl
    unfold resolveVarIdent
    rw [hcur]
    dsimp only
    rw [hmiss, hfind]
    unfold FuncFrame.tryAddUpvalue
    dsimp only
    rw [hmiss]
  · intro hmiss hnone
    have hfind : (searchOrder funcStack).findSome? (fun ifunc =>
        ((funcs ifunc).entityIndex key).map (fun ind =>
          ValueDescG.mk ifunc ind.toOp typ true)) = none := by
      refine findSome?_all_none _ _ ?_
      intro g hg
      rw [hnone g hg]
      rfl
    unfold resolveVarIdent
    rw [hcur]
    dsimp only
    rw [hmiss, hfind]

/-- The function table of the witness: function 1 defines the entity 7 as
its local 0; functions 2 and 3 hold nothing. -/
def c5Funcs : Nat → FuncFrame := fun n =>
  if n = 1 then { entities := [(7, .localVar 0)], upPtrs := [] }
  else { entities := [], upPtrs := [] }

/-- Witness for `resolve_var_ident_three_tier` on a three-deep nesting
`ctor 0 → f1 → f2 → f3 (current)` where only `f1` holds the entity: the
search skips `f2` (which holds no capture of its own) and registers the
descriptor in `f3` directly against `f1` with the is-local flag `true`. -/
theorem resolve_var_ident_three_tier_witness :
    resolveVarIdent c5Funcs [0, 1, 2, 3] 9 7 11 5
      = (.upValue 0,
         some (3, { entities := [(7, .upValue 0)],
                    upPtrs := [⟨1, 0, 5, true⟩] })) := by
  have h := (resolve_var_ident_three_tier c5Funcs [0, 1, 2, 3] 9 7 11 5 3
    rfl).2.1 rfl 1 1 (.localVar 0)
    (by
      intro m hm hlt
      have hm0 : m = 0 := by
        simp [searchOrder] at hm
        omega
      subst hm0
      rfl)
    rfl rfl
  simpa using h

/-! ## Switch lowering (`src/codegen/src/codegen.rs`, lines 686-742)

`gen_switch_body` lowers a switch (or type switch) in two passes.  Pass 1
visits each case value and emits a tagged conditional-jump instruction
(`Opcode::SWITCH`) per value, recording `(case index, code location)` in the
helper's tag store; after all cases a default jump (`Opcode::JUMP`) is always
emitted and its location recorded.  Pass 2 emits the case bodies in source
order: on reaching case `i` it back-patches the recorded jumps of case `i`
(or the default jump, for the default clause) to the body's entry, emits the
body statements, and — unless the case is marked fallthrough — records an
end-jump location and emits a `JUMP`.  Afterwards every recorded end jump is
patched to the end of the switch, the default jump is patched to the end when
no default clause exists, and the tag value is popped.

`SwitchHelper` itself lives in `codegen/src/branch.rs`, which is not among
the provided sources; its jump-point stores are modelled from the spec as
plain location lists with `patchAt` writing a jump target into an
already-emitted instruction.  Jump targets are represented as absolute code
indices (`none` = not yet patched). -/

/-- A switch case clause: its value list (`none` for the default clause), its
body statements (opaque ids) and its fallthrough marker. -/
structure CaseClause where
  vals : Option (List Int)
  body : List Nat
  fall : Bool
  deriving Repr, DecidableEq

/-- The instruction forms `gen_switch_body` emits: a tagged conditional jump
per case value (`Opcode::SWITCH`; the case value it compares the tag against
is kept in the instruction, its jump target is back-patched), an
unconditional jump, a body statement, and the final tag pop. -/
inductive SwInstr
  | swcase (v : Int) (target : Option Nat)
  | jmp (target : Option Nat)
  | stmtI (s : Nat)
  | popTag
  deriving Repr, DecidableEq

/-- Setting the jump target (the instruction immediate) of an emitted
instruction; only jump-like instructions carry one. -/
def SwInstr.withTarget : SwInstr → Nat → SwInstr
  | .swcase v _, t => .swcase v (some t)
  | .jmp _, t => .jmp (some t)
  | .stmtI s, _ => .stmtI s
  | .popTag, _ => .popTag

/-- Modelled from the spec: back-patch the recorded jump at `loc` to the
target `t` (the helper's `patch_case`/`patch_default`/`patch_ends` write the
now-known offset into the instruction at the recorded location). -/
def patchAt (code : List SwInstr) (loc t : Nat) : List SwInstr :=
  code.set loc ((code.getD loc .popTag).withTarget t)

/-- Modelled from the spec: patch every recorded tag jump of case `i` to
target `t`. -/
def patchCase (tags : List (Nat × Nat)) (i t : Nat)
    (code : List SwInstr) : List SwInstr :=
  tags.foldl (fun cd p => if p.1 = i then patchAt cd p.2 t else cd) code

/-- The inner loop of pass 1 for one case clause: per case value, record
`(case index, next code index)` and emit the tagged conditional jump. -/
def emitTags (i : Nat) :
    List Int → List SwInstr → List (Nat × Nat) → List SwInstr × List (Nat × Nat)
  | [], code, tags => (code, tags)
  | v :: vs, code, tags =>
    emitTags i vs (code ++ [SwInstr.swcase v none]) (tags ++ [(i, code.length)])

/-- Pass 1 of `gen_switch_body` (codegen.rs lines 689-704): emit the tagged
jumps for every non-default clause, note whether a default clause exists. -/
def pass1 :
    List CaseClause → Nat → List SwInstr → List (Nat × Nat) → Bool →
      List SwInstr × List (Nat × Nat) × Bool
  | [], _, code, tags, hd => (code, tags, hd)
  | c :: rest, i, code, tags, hd =>
    match c.vals with
    | some l =>
      let r := emitTags i l code tags
      pass1 rest (i + 1) r.1 r.2 hd
    | none => pass1 rest (i + 1) code tags true

/-- Pass 2 of `gen_switch_body` (codegen.rs lines 710-731): per clause in
source order, patch its recorded jumps (the default jump for the default
clause) to the body entry, emit the body, and — unless fallthrough — record
an end-jump location and emit the jump. -/
def pass2 (tags : List (Nat × Nat)) (dloc : Nat) :
    List CaseClause → Nat → List SwInstr → List Nat →
      List SwInstr × List Nat
  | [], _, code, ends => (code, ends)
  | c :: rest, i, code, ends =>
    let entry := code.length
    let code1 := match c.vals with
      | none => patchAt code dloc entry
      | some _ => patchCase tags i entry code
    let code2 := code1 ++ c.body.map SwInstr.stmtI
    if c.fall then
      pass2 tags dloc rest (i + 1) code2 ends
    else
      pass2 tags dloc rest (i + 1) (code2 ++ [SwInstr.jmp none])
        (ends ++ [code2.length])

/-- Pass 1 of `gen_switch_body`, started on empty code/tag stores. -/
def switchP1 (cases : List CaseClause) :
    List SwInstr × List (Nat × Nat) × Bool :=
  pass1 cases 0 [] [] false

/-- The recorded location of the always-emitted trailing default jump. -/
def switchDloc (cases : List CaseClause) : Nat := (switchP1 cases).1.length

/-- The code after pass 1 and the trailing default jump. -/
def switchC1 (cases : List CaseClause) : List SwInstr :=
  (switchP1 cases).1 ++ [SwInstr.jmp none]

/-- The code and recorded end-jump locations after pass 2. -/
def switchP2 (cases : List CaseClause) : List SwInstr × List Nat :=
  pass2 (switchP1 cases).2.1 (switchDloc cases) cases 0 (switchC1 cases) []

/-- The end of the switch: the next code index after pass 2. -/
def switchEndIdx (cases : List CaseClause) : Nat := (switchP2 cases).1.length

/-- The code after `patch_ends`. -/
def switchC3 (cases : List CaseClause) : List SwInstr :=
  (switchP2 cases).2.foldl
    (fun cd loc => patchAt cd loc (switchEndIdx cases)) (switchP2 cases).1

/-- The code after the absent-default patch ("jump to the end if there is no
default code"). -/
def switchC4 (cases : List CaseClause) : List SwInstr :=
  if (switchP1 cases).2.2 then switchC3 cases
  else patchAt (switchC3 cases) (switchDloc cases) (switchEndIdx cases)

/-- `gen_switch_body`: pass 1, the always-emitted trailing default jump,
pass 2, the end patches, the absent-default patch, and the tag pop. -/
def genSwitchBody (cases : List CaseClause) : List SwInstr :=
  switchC4 cases ++ [SwInstr.popTag]

/-- Instruction kinds: the emitted instruction stream with the back-patched
targets erased (a `SWITCH` keeps the case value it tests). -/
inductive SwKind
  | kcase (v : Int)
  | kjump
  | kstmt (s : Nat)
  | kpop
  deriving Repr, DecidableEq

def SwInstr.kind : SwInstr → SwKind
  | .swcase v _ => .kcase v
  | .jmp _ => .kjump
  | .stmtI s => .kstmt s
  | .popTag => .kpop

/-- The pass-1 tag instructions, one per case value in source order. -/
def tagInstrs (cases : List CaseClause) : List SwInstr :=
  (cases.map (fun c => (c.vals.getD []).map
    (fun v => SwInstr.swcase v none))).flatten

/-- All case values of the switch, in source order. -/
def allVals (cases : List CaseClause) : List Int :=
  (cases.map (fun c => c.vals.getD [])).flatten

def caseTagKinds (c : CaseClause) : List SwKind :=
  (c.vals.getD []).map SwKind.kcase

/-- The kinds of one pass-2 case region: the body statements followed by the
end jump unless the case falls through. -/
def caseRegionKinds (c : CaseClause) : List SwKind :=
  c.body.map SwKind.kstmt ++ (if c.fall then [] else [SwKind.kjump])

/-- The instruction-kind layout the spec describes: one tagged conditional
jump per case value, the trailing default jump, the case bodies in source
order each followed by an end jump unless marked fallthrough, and the tag
pop. -/
def switchSkeleton (cases : List CaseClause) : List SwKind :=
  (cases.map caseTagKinds).flatten ++ [SwKind.kjump] ++
    (cases.map caseRegionKinds).flatten ++ [SwKind.kpop]

/-- The executor of the emitted instruction region: `pc`-based small steps
with fuel; a `SWITCH` compares the tag against its case value and jumps on a
match, a body statement is recorded, running off the end of the region means
the program resumed after the switch.  `none` is fuel exhaustion or a jump
with an unpatched target. -/
def execSw (code : List SwInstr) (tag : Int) : Nat → Nat → Option (List Nat)
  | 0, _ => none
  | fuel + 1, pc =>
    match code[pc]? with
    | none => some []
    | some (.swcase v t) =>
      if tag = v then
        match t with
        | some t' => execSw code tag fuel t'
        | none => none
      else execSw code tag fuel (pc + 1)
    | some (.jmp (some t')) => execSw code tag fuel t'
    | some (.jmp none) => none
    | some (.stmtI s) => (execSw code tag fuel (pc + 1)).map (s :: ·)
    | some .popTag => execSw code tag fuel (pc + 1)

theorem kind_withTarget (i : SwInstr) (t : Nat) :
    (i.withTarget t).kind = i.kind := by
  cases i <;> rfl

theorem patchAt_nil (loc t : Nat) : patchAt [] loc t = [] := by
  cases loc <;> rfl

theorem patchAt_cons_zero (a : SwInstr) (l : List SwInstr) (t : Nat) :
    patchAt (a :: l) 0 t = a.withTarget t :: l := rfl

theorem patchAt_cons_succ (a : SwInstr) (l : List SwInstr) (n t : Nat) :
    patchAt (a :: l) (n + 1) t = a :: patchAt l n t := rfl

theorem map_kind_patchAt (cd : List SwInstr) (loc t : Nat) :
    (patchAt cd loc t).map SwInstr.kind = cd.map SwInstr.kind := by
  induction cd generalizing loc with
  | nil => rw [patchAt_nil]
  | cons a rest ih =>
    cases loc with
    | zero => simp [patchAt_cons_zero, kind_withTarget]
    | succ n => simp [patchAt_cons_succ, ih]

theorem map_kind_patchCase (i t : Nat) :
    ∀ (tags : List (Nat × Nat)) (code : List SwInstr),
    (patchCase tags i t code).map SwInstr.kind = code.map SwInstr.kind := by
  intro tags
  induction tags with
  | nil => intro code; rfl
  | cons p rest ih =>
    intro code
    unfold patchCase
    rw [List.foldl_cons]
    have : (patchCase rest i t (if p.1 = i then patchAt code p.2 t
        else code)).map SwInstr.kind
        = (if p.1 = i then patchAt code p.2 t else code).map SwInstr.kind :=
      ih _
    unfold patchCase at this
    rw [this]
    split
    · exact map_kind_patchAt code p.2 t
    · rfl

theorem map_kind_foldl_patchAt (e : Nat) :
    ∀ (locs : List Nat) (code : List SwInstr),
    ((locs.foldl (fun cd loc => patchAt cd loc e) code)).map SwInstr.kind
      = code.map SwInstr.kind := by
  intro locs
  induction locs with
  | nil => intro code; rfl
  | cons l rest ih =>
    intro code
    rw [List.foldl_cons, ih, map_kind_patchAt]

theorem emitTags_code (i : Nat) :
    ∀ (l : List Int) (code : List SwInstr) (tags : List (Nat × Nat)),
    (emitTags i l code tags).1
      = code ++ l.map (fun v => SwInstr.swcase v none) := by
  intro l
  induction l with
  | nil => intro code tags; simp [emitTags]
  | cons v vs ih =>
    intro code tags
    rw [emitTags, ih]
    simp

theorem pass1_code :
    ∀ (cases : List CaseClause) (i : Nat) (code : List SwInstr)
      (tags : List (Nat × Nat)) (hd : Bool),
    (pass1 cases i code tags hd).1 = code ++ tagInstrs cases := by
  intro cases
  induction cases with
  | nil => intro i code tags hd; simp [pass1, tagInstrs]
  | cons c rest ih =>
    intro i code tags hd
    unfold pass1
    cases hv : c.vals with
    | none =>
      rw [ih]
      simp [tagInstrs, hv]
    | some l =>
      rw [ih, emitTags_code]
      simp [tagInstrs, hv]

theorem pass1_hasDefault :
    ∀ (cases : List CaseClause) (i : Nat) (code : List SwInstr)
      (tags : List (Nat × Nat)) (hd : Bool),
    (pass1 cases i code tags hd).2.2
      = (hd || cases.any fun c => c.vals.isNone) := by
  intro cases
  induction cases with
  | nil => intro i code tags hd; simp [pass1]
  | cons c rest ih =>
    intro i code tags hd
    unfold pass1
    cases hv : c.vals with
    | none => rw [ih]; simp [hv]
    | some l => rw [ih]; simp [hv]

theorem pass2_kinds (tags : List (Nat × Nat)) (dloc : Nat) :
    ∀ (rest : List CaseClause) (i : Nat) (code : List SwInstr)
      (ends : List Nat),
    ((pass2 tags dloc rest i code ends).1).map SwInstr.kind
      = code.map SwInstr.kind ++ (rest.map caseRegionKinds).flatten := by
  intro rest
  induction rest with
  | nil => intro i code ends; simp [pass2]
  | cons c rest' ih =>
    intro i code ends
    have hkinds1 : (match c.vals with
        | none => patchAt code dloc code.length
        | some _ => patchCase tags i code.length code).map SwInstr.kind
        = code.map SwInstr.kind := by
      cases c.vals with
      | none => exact map_kind_patchAt code dloc code.length
      | some l => exact map_kind_patchCase i code.length tags code
    have hbody : (c.body.map SwInstr.stmtI).map SwInstr.kind
        = c.body.map SwKind.kstmt := by
      rw [List.map_map]
      rfl
    unfold pass2
    dsimp only
    cases hf : c.fall with
    | true =>
      rw [if_pos rfl, ih, List.map_append, hkinds1, hbody]
      simp [caseRegionKinds, hf, List.append_assoc, SwInstr.kind]
    | false =>
      rw [if_neg (by simp), ih, List.map_append, List.map_append,
        hkinds1, hbody]
      simp [caseRegionKinds, hf, List.append_assoc, SwInstr.kind]

theorem map_kind_tagInstrs :
    ∀ cases : List CaseClause,
    (tagInstrs cases).map SwInstr.kind = (cases.map caseTagKinds).flatten := by
  intro cases
  induction cases with
  | nil => rfl
  | cons c rest ih =>
    have hhead : ((c.vals.getD []).map
        (fun v => SwInstr.swcase v none)).map SwInstr.kind
        = caseTagKinds c := by
      rw [List.map_map]
      rfl
    calc (tagInstrs (c :: rest)).map SwInstr.kind
        = ((c.vals.getD []).map
            (fun v => SwInstr.swcase v none)).map SwInstr.kind
          ++ (tagInstrs rest).map SwInstr.kind := by
          unfold tagInstrs
          rw [List.map_cons, List.flatten_cons, List.map_append]
      _ = caseTagKinds c ++ (rest.map caseTagKinds).flatten := by
          rw [hhead, ih]
      _ = ((c :: rest).map caseTagKinds).flatten := by
          rw [List.map_cons, List.flatten_cons]

theorem caseTagKinds_flatten :
    ∀ cases : List CaseClause,
    (cases.map caseTagKinds).flatten = (allVals cases).map SwKind.kcase := by
  intro cases
  induction cases with
  | nil => rfl
  | cons c rest ih =>
    simp only [List.map_cons, List.flatten_cons, allVals, ih]
    rw [List.map_append]
    congr 1

/-- The generated switch region has exactly the instruction-kind layout the
spec describes. -/
theorem genSwitchBody_kinds (cases : List CaseClause) :
    (genSwitchBody cases).map SwInstr.kind = switchSkeleton cases := by
  have hc3 : (switchC3 cases).map SwInstr.kind
      = ((switchP2 cases).1).map SwInstr.kind :=
    map_kind_foldl_patchAt (switchEndIdx cases) (switchP2 cases).2
      (switchP2 cases).1
  have hc4 : (switchC4 cases).map SwInstr.kind
      = ((switchP2 cases).1).map SwInstr.kind := by
    unfold switchC4
    split
    · exact hc3
    · rw [map_kind_patchAt, hc3]
  have hp2 : ((switchP2 cases).1).map SwInstr.kind
      = (switchC1 cases).map SwInstr.kind
        ++ (cases.map caseRegionKinds).flatten :=
    pass2_kinds (switchP1 cases).2.1 (switchDloc cases) cases 0
      (switchC1 cases) []
  have hc1 : (switchC1 cases).map SwInstr.kind
      = (cases.map caseTagKinds).flatten ++ [SwKind.kjump] := by
    unfold switchC1
    rw [List.map_append]
    have hp1 : (switchP1 cases).1 = tagInstrs cases := by
      unfold switchP1
      rw [pass1_code]
      rfl
    rw [hp1, map_kind_tagInstrs]
    rfl
  unfold genSwitchBody switchSkeleton
  rw [List.map_append, hc4, hp2, hc1]
  simp [List.append_assoc, SwInstr.kind]

theorem length_eq_of_kind_eq {l1 l2 : List SwInstr}
    (h : l1.map SwInstr.kind = l2.map SwInstr.kind) :
    l1.length = l2.length := by
  have h2 := congrArg List.length h
  simpa using h2

theorem patchAt_length (cd : List SwInstr) (loc t : Nat) :
    (patchAt cd loc t).length = cd.length := List.length_set cd loc _

theorem tagInstrs_length (cases : List CaseClause) :
    (tagInstrs cases).length = (allVals cases).length := by
  have h1 : (tagInstrs cases).length
      = ((cases.map caseTagKinds).flatten).length := by
    have h2 := congrArg List.length (map_kind_tagInstrs cases)
    simpa using h2
  rw [h1, caseTagKinds_flatten]
  simp

theorem switchDloc_eq (cases : List CaseClause) :
    switchDloc cases = (allVals cases).length := by
  unfold switchDloc switchP1
  rw [pass1_code]
  simpa using tagInstrs_length cases

theorem switchP1_code (cases : List CaseClause) :
    (switchP1 cases).1 = tagInstrs cases := by
  unfold switchP1
  rw [pass1_code]
  rfl

theorem switchP2_kinds (cases : List CaseClause) :
    ((switchP2 cases).1).map SwInstr.kind
      = (((allVals cases).map SwKind.kcase) ++ [SwKind.kjump])
        ++ (cases.map caseRegionKinds).flatten := by
  unfold switchP2
  rw [pass2_kinds]
  unfold switchC1
  rw [List.map_append, switchP1_code, map_kind_tagInstrs,
    caseTagKinds_flatten]
  rfl

theorem switchC3_kinds (cases : List CaseClause) :
    (switchC3 cases).map SwInstr.kind
      = ((switchP2 cases).1).map SwInstr.kind :=
  map_kind_foldl_patchAt _ _ _

theorem switchC3_length (cases : List CaseClause) :
    (switchC3 cases).length = switchEndIdx cases :=
  length_eq_of_kind_eq (switchC3_kinds cases)

theorem switchEndIdx_eq (cases : List CaseClause) :
    switchEndIdx cases = (allVals cases).length + 1
      + ((cases.map caseRegionKinds).flatten).length := by
  have h := congrArg List.length (switchP2_kinds cases)
  simp only [List.length_map, List.length_append, List.length_cons,
    List.length_nil] at h
  unfold switchEndIdx
  omega

theorem genSwitchBody_length (cases : List CaseClause) :
    (genSwitchBody cases).length = switchEndIdx cases + 1 := by
  unfold genSwitchBody switchC4
  split
  · simp [switchC3_length]
  · simp [patchAt_length, switchC3_length]

theorem genSwitchBody_kind_at (cases : List CaseClause) (k : Nat) :
    ((genSwitchBody cases)[k]?).map SwInstr.kind
      = (switchSkeleton cases)[k]? := by
  rw [← List.getElem?_map, genSwitchBody_kinds]

theorem switchSkeleton_at_lt (cases : List CaseClause) (k : Nat)
    (hk : k < (allVals cases).length) :
    (switchSkeleton cases)[k]? = some (SwKind.kcase (allVals cases)[k]) := by
  unfold switchSkeleton
  rw [caseTagKinds_flatten]
  rw [List.getElem?_append_left (by
      simp only [List.length_map, List.length_append, List.length_cons,
        List.length_nil]
      omega),
    List.getElem?_append_left (by
      simp only [List.length_map, List.length_append, List.length_cons,
        List.length_nil]
      omega),
    List.getElem?_append_left (by simpa using hk),
    List.getElem?_map, List.getElem?_eq_getElem hk]
  rfl

theorem switchSkeleton_at_T (cases : List CaseClause) :
    (switchSkeleton cases)[(allVals cases).length]? = some SwKind.kjump := by
  unfold switchSkeleton
  rw [caseTagKinds_flatten]
  rw [List.getElem?_append_left (by
      simp only [List.length_map, List.length_append, List.length_cons,
        List.length_nil]
      omega),
    List.getElem?_append_left (by
      simp only [List.length_map, List.length_append, List.length_cons,
        List.length_nil]
      omega)]
  have h : ((allVals cases).map SwKind.kcase).length
      = (allVals cases).length := by simp
  rw [← h, List.getElem?_concat_length]

theorem switchSkeleton_length (cases : List CaseClause) :
    (switchSkeleton cases).length = (allVals cases).length + 1
      + ((cases.map caseRegionKinds).flatten).length + 1 := by
  unfold switchSkeleton
  rw [caseTagKinds_flatten]
  simp only [List.length_map, List.length_append, List.length_cons,
    List.length_nil]

theorem switchSkeleton_at_last (cases : List CaseClause) :
    (switchSkeleton cases)[(switchSkeleton cases).length - 1]?
      = some SwKind.kpop := by
  unfold switchSkeleton
  rw [show ((cases.map caseTagKinds).flatten ++ [SwKind.kjump]
      ++ (cases.map caseRegionKinds).flatten ++ [SwKind.kpop]).length - 1
      = (((cases.map caseTagKinds).flatten ++ [SwKind.kjump])
        ++ (cases.map caseRegionKinds).flatten).length by
    simp only [List.length_append, List.length_cons, List.length_nil]
    omega]
  exact List.getElem?_concat_length _ _

theorem genSwitchBody_swcase_at (cases : List CaseClause) (k : Nat)
    (hk : k < (allVals cases).length) :
    ∃ t, (genSwitchBody cases)[k]?
      = some (SwInstr.swcase (allVals cases)[k] t) := by
  have h := genSwitchBody_kind_at cases k
  rw [switchSkeleton_at_lt cases k hk] at h
  cases hG : (genSwitchBody cases)[k]? with
  | none => rw [hG] at h; simp at h
  | some i =>
    rw [hG] at h
    simp at h
    cases i with
    | swcase v t =>
      simp only [SwInstr.kind, SwKind.kcase.injEq] at h
      exact ⟨t, by rw [h]⟩
    | jmp t => simp [SwInstr.kind] at h
    | stmtI s => simp [SwInstr.kind] at h
    | popTag => simp [SwInstr.kind] at h

theorem genSwitchBody_pop_at (cases : List CaseClause) :
    (genSwitchBody cases)[(genSwitchBody cases).length - 1]?
      = some SwInstr.popTag := by
  have h := genSwitchBody_kind_at cases ((genSwitchBody cases).length - 1)
  have hlen : (genSwitchBody cases).length
      = (switchSkeleton cases).length := by
    have h2 := congrArg List.length (genSwitchBody_kinds cases)
    simpa using h2
  rw [hlen, switchSkeleton_at_last] at h
  cases hG : (genSwitchBody cases)[(genSwitchBody cases).length - 1]? with
  | none => rw [hlen] at hG; rw [hG] at h; simp at h
  | some i =>
    rw [hlen] at hG
    rw [hG] at h
    simp at h
    cases i with
    | swcase v t => simp [SwInstr.kind] at h
    | jmp t => simp [SwInstr.kind] at h
    | stmtI s => simp [SwInstr.kind] at h
    | popTag => rfl

theorem switchP1_no_default (cases : List CaseClause)
    (hnodef : ∀ c ∈ cases, c.vals.isSome) :
    (switchP1 cases).2.2 = false := by
  unfold switchP1
  rw [pass1_hasDefault]
  simp only [Bool.false_or]
  rw [List.any_eq_false]
  intro c hc
  have := hnodef c hc
  cases hv : c.vals with
  | none => rw [hv] at this; simp at this
  | some l => simp

theorem switchC3_jmp_at_dloc (cases : List CaseClause) :
    ∃ t0, (switchC3 cases)[switchDloc cases]? = some (SwInstr.jmp t0) := by
  have hk : ((switchC3 cases).map SwInstr.kind)[switchDloc cases]?
      = some SwKind.kjump := by
    rw [switchC3_kinds, switchP2_kinds, switchDloc_eq]
    rw [List.getElem?_append_left (by
      simp only [List.length_map, List.length_append, List.length_cons,
        List.length_nil]
      omega)]
    have h : ((allVals cases).map SwKind.kcase).length
        = (allVals cases).length := by simp
    rw [← h, List.getElem?_concat_length]
  rw [List.getElem?_map] at hk
  cases hG : (switchC3 cases)[switchDloc cases]? with
  | none => rw [hG] at hk; simp at hk
  | some i =>
    rw [hG] at hk
    simp at hk
    cases i with
    | swcase v t => simp [SwInstr.kind] at hk
    | jmp t => exact ⟨t, rfl⟩
    | stmtI s => simp [SwInstr.kind] at hk
    | popTag => simp [SwInstr.kind] at hk

theorem dloc_lt_endIdx (cases : List CaseClause) :
    switchDloc cases < switchEndIdx cases := by
  rw [switchDloc_eq, switchEndIdx_eq]
  omega

/-- When no default clause exists, the trailing default jump is patched to
the end of the switch (the position of the tag pop). -/
theorem genSwitchBody_default_target (cases : List CaseClause)
    (hnodef : ∀ c ∈ cases, c.vals.isSome) :
    (genSwitchBody cases)[(allVals cases).length]?
      = some (SwInstr.jmp (some (switchEndIdx cases))) := by
  obtain ⟨t0, ht0⟩ := switchC3_jmp_at_dloc cases
  have hdlt : switchDloc cases < (switchC3 cases).length := by
    rw [switchC3_length]
    exact dloc_lt_endIdx cases
  have hc4 : switchC4 cases
      = patchAt (switchC3 cases) (switchDloc cases) (switchEndIdx cases) := by
    unfold switchC4
    rw [switchP1_no_default cases hnodef]
    simp
  have hgetd : (switchC3 cases).getD (switchDloc cases) SwInstr.popTag
      = SwInstr.jmp t0 := by
    rw [List.getD_eq_getElem?_getD, ht0]
    rfl
  have hc4at : (switchC4 cases)[switchDloc cases]?
      = some (SwInstr.jmp (some (switchEndIdx cases))) := by
    rw [hc4]
    unfold patchAt
    rw [hgetd]
    exact List.getElem?_set_eq_of_lt _ hdlt
  have hfin : (genSwitchBody cases)[switchDloc cases]?
      = some (SwInstr.jmp (some (switchEndIdx cases))) := by
    unfold genSwitchBody
    rw [List.getElem?_append_left (by
      rw [hc4, patchAt_length]
      exact hdlt)]
    exact hc4at
  rw [← switchDloc_eq]
  exact hfin

theorem execSw_skip (code : List SwInstr) (tag : Int) :
    ∀ (n pc fuel : Nat),
    (∀ k, k < n →
      ∃ v t, code[pc + k]? = some (SwInstr.swcase v t) ∧ tag ≠ v) →
    n ≤ fuel →
    execSw code tag fuel pc = execSw code tag (fuel - n) (pc + n) := by
  intro n
  induction n with
  | zero => intro pc fuel h hf; simp
  | succ n' ih =>
    intro pc fuel h hf
    obtain ⟨v, t, hcode, hne⟩ := h 0 (by omega)
    rw [show pc + 0 = pc by omega] at hcode
    cases fuel with
    | zero => omega
    | succ f =>
      have hstep : execSw code tag (f + 1) pc
          = execSw code tag f (pc + 1) := by
        conv_lhs => unfold execSw
        rw [hcode]
        dsimp only
        rw [if_neg hne]
      rw [hstep]
      have hrest := ih (pc + 1) f (fun k hk => by
        obtain ⟨v', t', hc', hn'⟩ := h (k + 1) (by omega)
        exact ⟨v', t', by
          rw [show pc + 1 + k = pc + (k + 1) by omega]
          exact hc', hn'⟩) (by omega)
      rw [hrest]
      have e1 : f - n' = f + 1 - (n' + 1) := by omega
      have e2 : pc + 1 + n' = pc + (n' + 1) := by omega
      rw [e1, e2]

theorem execSw_step_jmp (code : List SwInstr) (tag : Int) (f pc t' : Nat)
    (h : code[pc]? = some (SwInstr.jmp (some t'))) :
    execSw code tag (f + 1) pc = execSw code tag f t' := by
  conv_lhs => unfold execSw
  rw [h]

theorem execSw_step_pop (code : List SwInstr) (tag : Int) (f pc : Nat)
    (h : code[pc]? = some SwInstr.popTag) :
    execSw code tag (f + 1) pc = execSw code tag f (pc + 1) := by
  conv_lhs => unfold execSw
  rw [h]

theorem execSw_step_off (code : List SwInstr) (tag : Int) (f pc : Nat)
    (h : code[pc]? = none) :
    execSw code tag (f + 1) pc = some [] := by
  conv_lhs => unfold execSw
  rw [h]

/-- Executing the generated switch with a tag matching no case value — given
no default clause — runs through all tagged jumps without taking any, takes
the default jump to the end, pops the tag and leaves the region, having
executed no case-body statement. -/
theorem execSw_no_match (cases : List CaseClause) (tag : Int)
    (hnodef : ∀ c ∈ cases, c.vals.isSome)
    (hnm : tag ∉ allVals cases) (fuel : Nat)
    (hfuel : (allVals cases).length + 3 ≤ fuel) :
    execSw (genSwitchBody cases) tag fuel 0 = some [] := by
  have hskip := execSw_skip (genSwitchBody cases) tag
    (allVals cases).length 0 fuel
    (fun k hk => by
      obtain ⟨t, ht⟩ := genSwitchBody_swcase_at cases k hk
      refine ⟨(allVals cases)[k], t, by simpa using ht, ?_⟩
      intro he
      exact hnm (he ▸ List.getElem_mem hk))
    (by omega)
  rw [show 0 + (allVals cases).length = (allVals cases).length by omega]
    at hskip
  rw [hskip]
  have hjump := genSwitchBody_default_target cases hnodef
  have hlen := genSwitchBody_length cases
  have hpop : (genSwitchBody cases)[switchEndIdx cases]?
      = some SwInstr.popTag := by
    have h2 := genSwitchBody_pop_at cases
    rw [hlen] at h2
    simpa using h2
  obtain ⟨f3, hf3⟩ : ∃ f3, fuel - (allVals cases).length = f3 + 3 :=
    ⟨fuel - (allVals cases).length - 3, by omega⟩
  rw [hf3]
  rw [show f3 + 3 = (f3 + 2) + 1 from rfl]
  rw [execSw_step_jmp _ _ _ _ _ hjump]
  rw [show f3 + 2 = (f3 + 1) + 1 from rfl]
  rw [execSw_step_pop _ _ _ _ hpop]
  rw [execSw_step_off _ _ _ _ (List.getElem?_eq_none (by rw [hlen]))]

/-! ### Back-patch target correctness

The remaining content of the switch claim: every recorded jump is
back-patched to the correct body-entry / end address.  The positions are
expressed with the layout arithmetic below. -/

/-- Number of instructions of one pass-2 case region. -/
def regionLen (c : CaseClause) : Nat :=
  c.body.length + (if c.fall then 0 else 1)

/-- The body entry of case `j`: the region of case `j` starts after the
pass-1 tag jumps, the default jump, and the earlier case regions. -/
def entryOf (cases : List CaseClause) (j : Nat) : Nat :=
  (allVals cases).length + 1 + ((cases.take j).map regionLen).sum

/-- The recorded tag-jump location of the `k`-th value of case `j`. -/
def tagLocOf (cases : List CaseClause) (j k : Nat) : Nat :=
  (((cases.take j).map (fun c => (c.vals.getD []).length)).sum) + k

theorem getElem?_patchAt_ne (cd : List SwInstr) (loc t k : Nat)
    (h : k ≠ loc) : (patchAt cd loc t)[k]? = cd[k]? := by
  unfold patchAt
  exact List.getElem?_set_ne (fun he => h he.symm)

theorem getElem?_patchAt_eq (cd : List SwInstr) (loc t : Nat) (x : SwInstr)
    (h : cd[loc]? = some x) :
    (patchAt cd loc t)[loc]? = some (x.withTarget t) := by
  have hlt : loc < cd.length := by
    obtain ⟨h1, -⟩ := List.getElem?_eq_some.mp h
    exact h1
  unfold patchAt
  rw [show cd.getD loc SwInstr.popTag = x by
    rw [List.getD_eq_getElem?_getD, h]; rfl]
  exact List.getElem?_set_eq_of_lt _ hlt

theorem patchAt_append_left (cd ext : List SwInstr) (loc t : Nat)
    (h : loc < cd.length) :
    patchAt (cd ++ ext) loc t = patchAt cd loc t ++ ext := by
  unfold patchAt
  rw [List.getD_eq_getElem?_getD, List.getElem?_append_left h,
    ← List.getD_eq_getElem?_getD, List.set_append_left _ _ h]

theorem patchAt_append_right (cd ext : List SwInstr) (loc t : Nat)
    (h : cd.length ≤ loc) :
    patchAt (cd ++ ext) loc t = cd ++ patchAt ext (loc - cd.length) t := by
  unfold patchAt
  rw [List.getD_eq_getElem?_getD, List.getElem?_append_right h,
    ← List.getD_eq_getElem?_getD, List.set_append_right _ _ h]

/-- `patchCase` leaves every location that is not a recorded tag location of
case `i` unchanged. -/
theorem getElem?_patchCase_ne (i t : Nat) :
    ∀ (tags : List (Nat × Nat)) (code : List SwInstr) (k : Nat),
    (∀ p ∈ tags, p.1 = i → p.2 ≠ k) →
    (patchCase tags i t code)[k]? = code[k]? := by
  intro tags
  induction tags with
  | nil => intro code k h; rfl
  | cons p rest ih =>
    intro code k h
    unfold patchCase
    rw [List.foldl_cons]
    have hrest : ∀ q ∈ rest, q.1 = i → q.2 ≠ k :=
      fun q hq => h q (by simp [hq])
    have := ih (if p.1 = i then patchAt code p.2 t else code) k hrest
    unfold patchCase at this
    rw [this]
    split
    · exact getElem?_patchAt_ne code p.2 t k
        (fun he => h p (by simp) (by assumption) he.symm)
    · rfl

/-- `patchCase` patches each recorded tag location of case `i` to the
target, provided recorded locations are distinct. -/
theorem getElem?_patchCase_eq (i t : Nat) :
    ∀ (tags : List (Nat × Nat)) (code : List SwInstr) (loc : Nat)
      (x : SwInstr),
    (tags.map Prod.snd).Nodup → (i, loc) ∈ tags → code[loc]? = some x →
    (patchCase tags i t code)[loc]? = some (x.withTarget t) := by
  intro tags
  induction tags with
  | nil => intro code loc x hnd hmem hx; simp at hmem
  | cons p rest ih =>
    intro code loc x hnd hmem hx
    unfold patchCase
    rw [List.foldl_cons]
    simp only [List.map_cons] at hnd
    obtain ⟨hp2, hndrest⟩ := List.nodup_cons.mp hnd
    rcases List.mem_cons.mp hmem with heq | hmem'
    · subst heq
      have hrest : ∀ q ∈ rest, q.1 = i → q.2 ≠ loc := by
        intro q hq _ hq2
        exact hp2 (List.mem_map.mpr ⟨q, hq, hq2⟩)
      have hout := getElem?_patchCase_ne i t rest
        (if (i, loc).1 = i then patchAt code (i, loc).2 t else code) loc hrest
      unfold patchCase at hout
      rw [hout]
      simp only [if_pos rfl]
      exact getElem?_patchAt_eq code loc t x hx
    · have hne : p.2 ≠ loc := by
        intro he
        exact hp2 (he ▸ List.mem_map.mpr ⟨(i, loc), hmem', rfl⟩)
      have hin : (if p.1 = i then patchAt code p.2 t else code)[loc]?
          = some x := by
        split
        · rw [getElem?_patchAt_ne code p.2 t loc (fun h2 => hne h2.symm)]
          exact hx
        · exact hx
      have := ih (if p.1 = i then patchAt code p.2 t else code) loc x
        hndrest hmem' hin
      unfold patchCase at this
      rw [this]

theorem patchCase_length (i t : Nat) :
    ∀ (tags : List (Nat × Nat)) (code : List SwInstr),
    (patchCase tags i t code).length = code.length := by
  intro tags
  induction tags with
  | nil => intro code; rfl
  | cons p rest ih =>
    intro code
    unfold patchCase
    rw [List.foldl_cons]
    have := ih (if p.1 = i then patchAt code p.2 t else code)
    unfold patchCase at this
    rw [this]
    split
    · exact patchAt_length code p.2 t
    · rfl

theorem tags_snd_inj :
    ∀ {tags : List (Nat × Nat)}, (tags.map Prod.snd).Nodup →
    ∀ {a b loc : Nat}, (a, loc) ∈ tags → (b, loc) ∈ tags → a = b := by
  intro tags
  induction tags with
  | nil => intro _ a b loc ha _; simp at ha
  | cons p rest ih =>
    intro hnd a b loc ha hb
    simp only [List.map_cons] at hnd
    obtain ⟨hp2, hndrest⟩ := List.nodup_cons.mp hnd
    rcases List.mem_cons.mp ha with haeq | ha'
    · rcases List.mem_cons.mp hb with hbeq | hb'
      · rw [← haeq] at hbeq
        exact (Prod.mk.injEq _ _ _ _ ▸ hbeq : _ ∧ _).1.symm
      · exfalso
        apply hp2
        rw [← haeq]
        exact List.mem_map.mpr ⟨(b, loc), hb', rfl⟩
    · rcases List.mem_cons.mp hb with hbeq | hb'
      · exfalso
        apply hp2
        rw [← hbeq]
        exact List.mem_map.mpr ⟨(a, loc), ha', rfl⟩
      · exact ih hndrest ha' hb'

/-- Pass 2 never modifies a location that is neither the default-jump
location nor a tag location of a still-unprocessed case. -/
theorem pass2_no_touch (tags : List (Nat × Nat)) (dloc : Nat) :
    ∀ (rest : List CaseClause) (i : Nat) (code : List SwInstr)
      (ends : List Nat) (loc : Nat),
    loc < code.length → loc ≠ dloc →
    (∀ p ∈ tags, p.2 = loc → p.1 < i) →
    (pass2 tags dloc rest i code ends).1[loc]? = code[loc]? := by
  intro rest
  induction rest with
  | nil => intro i code ends loc h1 h2 h3; rfl
  | cons c rest' ih =>
    intro i code ends loc h1 h2 h3
    have hc1get : (match c.vals with
        | none => patchAt code dloc code.length
        | some _ => patchCase tags i code.length code)[loc]?
        = code[loc]? := by
      cases c.vals with
      | none => exact getElem?_patchAt_ne code dloc _ loc h2
      | some l =>
        exact getElem?_patchCase_ne i _ tags code loc
          (fun p hp hpi hploc => absurd (h3 p hp hploc) (by omega))
    have hc1len : (match c.vals with
        | none => patchAt code dloc code.length
        | some _ => patchCase tags i code.length code).length
        = code.length := by
      cases c.vals with
      | none => exact patchAt_length code dloc code.length
      | some l => exact patchCase_length i code.length tags code
    have h3' : ∀ p ∈ tags, p.2 = loc → p.1 < i + 1 :=
      fun p hp hploc => Nat.lt_succ_of_lt (h3 p hp hploc)
    unfold pass2
    dsimp only
    cases hf : c.fall with
    | true =>
      rw [if_pos rfl]
      rw [ih (i + 1) _ ends loc (by simp [hc1len]; omega) h2 h3']
      rw [List.getElem?_append_left (by rw [hc1len]; exact h1)]
      exact hc1get
    | false =>
      rw [if_neg (by simp)]
      rw [ih (i + 1) _ _ loc (by simp [hc1len]; omega) h2 h3']
      rw [List.getElem?_append_left (by simp [hc1len]; omega),
        List.getElem?_append_left (by rw [hc1len]; exact h1)]
      exact hc1get

/-- Pass 2 patches the recorded tag jumps of case `j` to case `j`'s body
entry: the code length at the start of case `j`'s step. -/
theorem pass2_tag_target (tags : List (Nat × Nat)) (dloc : Nat)
    (hnd : (tags.map Prod.snd).Nodup)
    (hlocs : ∀ p ∈ tags, p.2 < dloc) :
    ∀ (rest : List CaseClause) (i : Nat) (code : List SwInstr)
      (ends : List Nat) (j loc : Nat) (x : SwInstr) (cj : CaseClause),
    dloc < code.length →
    i ≤ j → rest[j - i]? = some cj → cj.vals.isSome →
    (j, loc) ∈ tags → code[loc]? = some x →
    (pass2 tags dloc rest i code ends).1[loc]?
      = some (x.withTarget (code.length
          + ((rest.take (j - i)).map regionLen).sum)) := by
  intro rest
  induction rest with
  | nil => intro i code ends j loc x cj hdl hij hj hcv hmem hx; simp at hj
  | cons c rest' ih =>
    intro i code ends j loc x cj hdl hij hj hcv hmem hx
    have hloc_lt : loc < code.length := lt_trans (hlocs _ hmem) hdl
    have hloc_ne : loc ≠ dloc := Nat.ne_of_lt (hlocs _ hmem)
    rcases Nat.eq_or_lt_of_le hij with heq | hlt
    · -- j's own step: the tag jumps are patched to this entry
      subst heq
      have hji : i - i = 0 := by omega
      rw [hji] at hj
      simp at hj
      subst hj
      obtain ⟨l, hl⟩ := Option.isSome_iff_exists.mp hcv
      have hpatched := getElem?_patchCase_eq i code.length tags code loc x
        hnd hmem hx
      have hc1len : (patchCase tags i code.length code).length
          = code.length := patchCase_length i code.length tags code
      have hafter : ∀ p ∈ tags, p.2 = loc → p.1 < i + 1 := by
        intro p hp hploc
        have hpi : p.1 = i := by
          have : (p.1, loc) ∈ tags := by
            have hp' : p = (p.1, p.2) := rfl
            rw [hp', hploc] at hp
            exact hp
          exact tags_snd_inj hnd this hmem
        omega
      unfold pass2
      dsimp only
      rw [hl]
      dsimp only
      rw [hji]
      simp only [List.take_zero, List.map_nil, List.sum_nil, Nat.add_zero]
      cases hf : c.fall with
      | true =>
        rw [if_pos rfl]
        rw [pass2_no_touch tags dloc rest' (i + 1) _ ends loc
          (by simp [hc1len]; omega) hloc_ne hafter]
        rw [List.getElem?_append_left (by rw [hc1len]; exact hloc_lt)]
        exact hpatched
      | false =>
        rw [if_neg (by simp)]
        rw [pass2_no_touch tags dloc rest' (i + 1) _ _ loc
          (by simp [hc1len]; omega) hloc_ne hafter]
        rw [List.getElem?_append_left (by simp [hc1len]; omega),
          List.getElem?_append_left (by rw [hc1len]; exact hloc_lt)]
        exact hpatched
    · -- an earlier case's step: untouched here, recurse
      have hc1get : (match c.vals with
          | none => patchAt code dloc code.length
          | some _ => patchCase tags i code.length code)[loc]?
          = some x := by
        cases c.vals with
        | none => rw [getElem?_patchAt_ne code dloc _ loc hloc_ne]; exact hx
        | some l =>
          rw [getElem?_patchCase_ne i _ tags code loc]
          · exact hx
          · intro p hp hpi hploc
            have : (i, loc) ∈ tags := by
              have hp' : p = (p.1, p.2) := rfl
              rw [hp', hpi, hploc] at hp
              exact hp
            have := tags_snd_inj hnd hmem this
            omega
      have hc1len : (match c.vals with
          | none => patchAt code dloc code.length
          | some _ => patchCase tags i code.length code).length
          = code.length := by
        cases c.vals with
        | none => exact patchAt_length code dloc code.length
        | some l => exact patchCase_length i code.length tags code
      have hj' : rest'[j - (i + 1)]? = some cj := by
        have : j - i = (j - (i + 1)) + 1 := by omega
        rw [this] at hj
        simpa using hj
      have htake : (c :: rest').take (j - i)
          = c :: rest'.take (j - (i + 1)) := by
        have : j - i = (j - (i + 1)) + 1 := by omega
        rw [this]
        rfl
      unfold pass2
      dsimp only
      cases hf : c.fall with
      | true =>
        rw [if_pos rfl]
        have hrec := ih (i + 1)
          ((match c.vals with
            | none => patchAt code dloc code.length
            | some _ => patchCase tags i code.length code)
            ++ c.body.map SwInstr.stmtI)
          ends j loc x cj
          (by simp only [List.length_append, hc1len]; omega) (by omega)
          hj' hcv hmem
          (by
            rw [List.getElem?_append_left (by rw [hc1len]; exact hloc_lt)]
            exact hc1get)
        rw [hrec]
        congr 2
        have hsum : ((List.take (j - i) (c :: rest')).map regionLen).sum
            = regionLen c
              + ((List.take (j - (i + 1)) rest').map regionLen).sum := by
          rw [htake, List.map_cons, List.sum_cons]
        have hrl : regionLen c = c.body.length := by
          simp [regionLen, hf]
        simp only [List.length_append, hc1len, List.length_map]
        omega
      | false =>
        rw [if_neg (by simp)]
        have hrec := ih (i + 1)
          (((match c.vals with
            | none => patchAt code dloc code.length
            | some _ => patchCase tags i code.length code)
            ++ c.body.map SwInstr.stmtI) ++ [SwInstr.jmp none])
          (ends ++ [((match c.vals with
            | none => patchAt code dloc code.length
            | some _ => patchCase tags i code.length code)
            ++ c.body.map SwInstr.stmtI).length])
          j loc x cj
          (by simp only [List.length_append, hc1len]; omega) (by omega)
          hj' hcv hmem
          (by
            rw [List.getElem?_append_left (by
                simp only [List.length_append, hc1len]
                omega),
              List.getElem?_append_left (by rw [hc1len]; exact hloc_lt)]
            exact hc1get)
        rw [hrec]
        congr 2
        have hsum : ((List.take (j - i) (c :: rest')).map regionLen).sum
            = regionLen c
              + ((List.take (j - (i + 1)) rest').map regionLen).sum := by
          rw [htake, List.map_cons, List.sum_cons]
        have hrl : regionLen c = c.body.length + 1 := by
          simp [regionLen, hf]
        simp only [List.length_append, hc1len, List.length_map,
          List.length_cons, List.length_nil]
        omega

/-- `n` consecutive tag records of case `i` starting at code location
`base`. -/
def rangeTags (i : Nat) : Nat → Nat → List (Nat × Nat)
  | _, 0 => []
  | base, n + 1 => (i, base) :: rangeTags i (base + 1) n

/-- The tag records pass 1 produces: per non-default case, one record per
case value, at consecutive code locations. -/
def tagsFor : List CaseClause → Nat → Nat → List (Nat × Nat)
  | [], _, _ => []
  | c :: rest, i, base =>
    match c.vals with
    | some l =>
      rangeTags i base l.length ++ tagsFor rest (i + 1) (base + l.length)
    | none => tagsFor rest (i + 1) base

theorem emitTags_tags (i : Nat) :
    ∀ (l : List Int) (code : List SwInstr) (tags : List (Nat × Nat)),
    (emitTags i l code tags).2 = tags ++ rangeTags i code.length l.length := by
  intro l
  induction l with
  | nil => intro code tags; simp [emitTags, rangeTags]
  | cons v vs ih =>
    intro code tags
    rw [emitTags, ih]
    simp [rangeTags]

theorem pass1_tags :
    ∀ (cases : List CaseClause) (i : Nat) (code : List SwInstr)
      (tags : List (Nat × Nat)) (hd : Bool),
    (pass1 cases i code tags hd).2.1 = tags ++ tagsFor cases i code.length := by
  intro cases
  induction cases with
  | nil => intro i code tags hd; simp [pass1, tagsFor]
  | cons c rest ih =>
    intro i code tags hd
    unfold pass1
    cases hv : c.vals with
    | none =>
      rw [ih]
      simp [tagsFor, hv]
    | some l =>
      rw [ih, emitTags_tags, emitTags_code]
      simp [tagsFor, hv, List.append_assoc]

theorem rangeTags_mem (i : Nat) :
    ∀ (n base k : Nat), k < n → (i, base + k) ∈ rangeTags i base n := by
  intro n
  induction n with
  | zero => intro base k h; omega
  | succ n' ih =>
    intro base k h
    cases k with
    | zero => simp [rangeTags]
    | succ k' =>
      have := ih (base + 1) k' (by omega)
      rw [show base + (k' + 1) = (base + 1) + k' by omega]
      exact List.mem_cons_of_mem _ this

theorem rangeTags_bounds (i : Nat) :
    ∀ (n base : Nat) (p : Nat × Nat), p ∈ rangeTags i base n →
    p.1 = i ∧ base ≤ p.2 ∧ p.2 < base + n := by
  intro n
  induction n with
  | zero => intro base p h; simp [rangeTags] at h
  | succ n' ih =>
    intro base p h
    rcases List.mem_cons.mp h with heq | hmem
    · subst heq; exact ⟨rfl, by omega, by omega⟩
    · have := ih (base + 1) p hmem
      exact ⟨this.1, by omega, by omega⟩

/-- Total number of case values of the whole case list. -/
theorem tagsFor_bounds :
    ∀ (cases : List CaseClause) (i base : Nat) (p : Nat × Nat),
    p ∈ tagsFor cases i base →
    i ≤ p.1 ∧ base ≤ p.2 ∧ p.2 < base + (allVals cases).length := by
  intro cases
  induction cases with
  | nil => intro i base p h; simp [tagsFor] at h
  | cons c rest ih =>
    intro i base p h
    unfold tagsFor at h
    cases hv : c.vals with
    | none =>
      rw [hv] at h
      have := ih (i + 1) base p h
      have hlen : (allVals (c :: rest)).length = (allVals rest).length := by
        simp [allVals, hv]
      omega
    | some l =>
      rw [hv] at h
      have hlen : (allVals (c :: rest)).length
          = l.length + (allVals rest).length := by
        simp [allVals, hv]
      rcases List.mem_append.mp h with hmem | hmem
      · have := rangeTags_bounds i l.length base p hmem
        omega
      · have := ih (i + 1) (base + l.length) p hmem
        omega

theorem rangeTags_snd_nodup (i : Nat) :
    ∀ (n base : Nat), ((rangeTags i base n).map Prod.snd).Nodup := by
  intro n
  induction n with
  | zero => intro base; simp [rangeTags]
  | succ n' ih =>
    intro base
    simp only [rangeTags, List.map_cons]
    rw [List.nodup_cons]
    refine ⟨?_, ih (base + 1)⟩
    intro hmem
    obtain ⟨p, hp, hp2⟩ := List.mem_map.mp hmem
    have := rangeTags_bounds i n' (base + 1) p hp
    omega

theorem tagsFor_snd_nodup :
    ∀ (cases : List CaseClause) (i base : Nat),
    ((tagsFor cases i base).map Prod.snd).Nodup := by
  intro cases
  induction cases with
  | nil => intro i base; simp [tagsFor]
  | cons c rest ih =>
    intro i base
    unfold tagsFor
    cases hv : c.vals with
    | none => exact ih (i + 1) base
    | some l =>
      rw [List.map_append, List.nodup_append]
      refine ⟨rangeTags_snd_nodup i l.length base, ih (i + 1) _, ?_⟩
      intro a ha ha'
      obtain ⟨p, hp, hp2⟩ := List.mem_map.mp ha
      obtain ⟨q, hq, hq2⟩ := List.mem_map.mp ha'
      have hb1 := rangeTags_bounds i l.length base p hp
      have hb2 := tagsFor_bounds rest (i + 1) (base + l.length) q hq
      omega

/-- The tag record of the `k`-th value of (absolute) case `j`. -/
theorem tagsFor_mem :
    ∀ (cases : List CaseClause) (i base j k : Nat) (cj : CaseClause)
      (l : List Int),
    cases[j]? = some cj → cj.vals = some l → k < l.length →
    (i + j,
      base + ((cases.take j).map (fun c => (c.vals.getD []).length)).sum + k)
      ∈ tagsFor cases i base := by
  intro cases
  induction cases with
  | nil => intro i base j k cj l hj hl hk; simp at hj
  | cons c rest ih =>
    intro i base j k cj l hj hl hk
    cases j with
    | zero =>
      simp at hj
      subst hj
      unfold tagsFor
      rw [hl]
      simp only [List.take_zero, List.map_nil, List.sum_nil, Nat.add_zero]
      exact List.mem_append_left _ (rangeTags_mem i l.length base k hk)
    | succ j' =>
      simp at hj
      unfold tagsFor
      cases hv : c.vals with
      | none =>
        have hrec := ih (i + 1) base j' k cj l hj hl hk
        have hz : (c.vals.getD []).length = 0 := by simp [hv]
        rw [show i + (j' + 1) = (i + 1) + j' by omega]
        simp only [List.take_succ_cons, List.map_cons, List.sum_cons, hz,
          Nat.zero_add]
        exact hrec
      | some l0 =>
        have hrec := ih (i + 1) (base + l0.length) j' k cj l hj hl hk
        rw [show i + (j' + 1) = (i + 1) + j' by omega]
        refine List.mem_append_right _ ?_
        have hlc : (c.vals.getD []).length = l0.length := by simp [hv]
        simp only [List.take_succ_cons, List.map_cons, List.sum_cons, hlc]
        rw [show base + (l0.length
            + ((rest.take j').map (fun c => (c.vals.getD []).length)).sum) + k
          = base + l0.length
            + ((rest.take j').map (fun c => (c.vals.getD []).length)).sum + k
          by omega]
        exact hrec

/-- The pass-1 tag instruction at the recorded location of the `k`-th value
of case `j` carries that case value (and no target yet). -/
theorem tagInstrs_at :
    ∀ (cases : List CaseClause) (j k : Nat) (cj : CaseClause) (l : List Int)
      (hj : cases[j]? = some cj) (hl : cj.vals = some l) (hk : k < l.length),
    (tagInstrs cases)[tagLocOf cases j k]?
      = some (SwInstr.swcase l[k] none) := by
  intro cases
  induction cases with
  | nil => intro j k cj l hj hl hk; simp at hj
  | cons c rest ih =>
    intro j k cj l hj hl hk
    cases j with
    | zero =>
      simp at hj
      subst hj
      unfold tagInstrs tagLocOf
      simp only [List.take_zero, List.map_nil, List.sum_nil, Nat.zero_add,
        List.map_cons, List.flatten_cons, hl, Option.getD_some]
      rw [List.getElem?_append_left (by simp [hk]),
        List.getElem?_map, List.getElem?_eq_getElem hk]
      rfl
    | succ j' =>
      simp at hj
      have hrec := ih j' k cj l hj hl hk
      unfold tagInstrs tagLocOf
      simp only [List.map_cons, List.flatten_cons, List.take_succ_cons,
        List.sum_cons]
      rw [List.getElem?_append_right (by simp; omega)]
      unfold tagInstrs tagLocOf at hrec
      rw [show (c.vals.getD []).length
          + ((rest.take j').map (fun c => (c.vals.getD []).length)).sum + k
          - ((c.vals.getD []).map (fun v => SwInstr.swcase v none)).length
          = ((rest.take j').map (fun c => (c.vals.getD []).length)).sum + k
        by simp; omega]
      exact hrec

theorem switchP1_tags (cases : List CaseClause) :
    (switchP1 cases).2.1 = tagsFor cases 0 0 := by
  unfold switchP1
  rw [pass1_tags]
  simp

theorem switchC1_length (cases : List CaseClause) :
    (switchC1 cases).length = (allVals cases).length + 1 := by
  unfold switchC1
  rw [switchP1_code]
  simp [tagInstrs_length]

/-- Every end-jump location pass 2 records lies at or past the code length
the pass started from. -/
theorem pass2_ends_lb (tags : List (Nat × Nat)) (dloc : Nat) :
    ∀ (rest : List CaseClause) (i : Nat) (code : List SwInstr)
      (ends : List Nat) (e : Nat),
    e ∈ (pass2 tags dloc rest i code ends).2 →
    e ∈ ends ∨ code.length ≤ e := by
  intro rest
  induction rest with
  | nil => intro i code ends e h; exact Or.inl h
  | cons c rest' ih =>
    intro i code ends e h
    have hc1len : (match c.vals with
        | none => patchAt code dloc code.length
        | some _ => patchCase tags i code.length code).length
        = code.length := by
      cases c.vals with
      | none => exact patchAt_length code dloc code.length
      | some l => exact patchCase_length i code.length tags code
    unfold pass2 at h
    dsimp only at h
    cases hf : c.fall with
    | true =>
      rw [if_pos (by rw [hf])] at h
      rcases ih (i + 1) _ ends e h with hin | hge
      · exact Or.inl hin
      · right
        simp only [List.length_append, hc1len] at hge
        omega
    | false =>
      rw [if_neg (by rw [hf]; simp)] at h
      rcases ih (i + 1) _ _ e h with hin | hge
      · rcases List.mem_append.mp hin with hin' | hone
        · exact Or.inl hin'
        · right
          simp only [List.mem_singleton] at hone
          subst hone
          simp only [List.length_append, hc1len]
          omega
      · right
        simp only [List.length_append, hc1len] at hge
        omega

/-- Folding `patchAt` over a list of locations leaves every other location
unchanged. -/
theorem getElem?_foldPatch_ne (e : Nat) :
    ∀ (locs : List Nat) (code : List SwInstr) (q : Nat),
    (∀ p ∈ locs, p ≠ q) →
    (locs.foldl (fun cd loc => patchAt cd loc e) code)[q]? = code[q]? := by
  intro locs
  induction locs with
  | nil => intro code q h; rfl
  | cons p rest ih =>
    intro code q h
    rw [List.foldl_cons, ih _ q (fun r hr => h r (List.mem_cons_of_mem _ hr))]
    exact getElem?_patchAt_ne code p e q
      (fun he => h p (List.mem_cons_self p rest) he.symm)

/-- Folding `patchAt` over distinct locations patches each of them. -/
theorem getElem?_foldPatch_eq (e : Nat) :
    ∀ (locs : List Nat) (code : List SwInstr) (q : Nat) (x : SwInstr),
    locs.Nodup → q ∈ locs → code[q]? = some x →
    (locs.foldl (fun cd loc => patchAt cd loc e) code)[q]?
      = some (x.withTarget e) := by
  intro locs
  induction locs with
  | nil => intro code q x hnd hq hx; simp at hq
  | cons p rest ih =>
    intro code q x hnd hq hx
    obtain ⟨hp, hndrest⟩ := List.nodup_cons.mp hnd
    rw [List.foldl_cons]
    rcases List.mem_cons.mp hq with heq | hmem
    · subst heq
      rw [getElem?_foldPatch_ne e rest _ q
        (fun r hr he => hp (he ▸ hr))]
      exact getElem?_patchAt_eq code q e x hx
    · refine ih _ q x hndrest hmem ?_
      rw [getElem?_patchAt_ne code p e q (fun he => hp (he ▸ hmem))]
      exact hx

/-- Every recorded tag jump of every case value is back-patched, in the
final generated stream, to the owning case's body entry. -/
theorem genSwitchBody_tag_target (cases : List CaseClause) (j k : Nat)
    (cj : CaseClause) (l : List Int)
    (hj : cases[j]? = some cj) (hl : cj.vals = some l) (hk : k < l.length) :
    (genSwitchBody cases)[tagLocOf cases j k]?
      = some (SwInstr.swcase l[k] (some (entryOf cases j))) := by
  have hnd : (((switchP1 cases).2.1).map Prod.snd).Nodup := by
    rw [switchP1_tags]
    exact tagsFor_snd_nodup cases 0 0
  have hlocs : ∀ p ∈ (switchP1 cases).2.1, p.2 < switchDloc cases := by
    rw [switchP1_tags, switchDloc_eq]
    intro p hp
    have := tagsFor_bounds cases 0 0 p hp
    omega
  have hmem : (j, tagLocOf cases j k) ∈ (switchP1 cases).2.1 := by
    rw [switchP1_tags]
    have := tagsFor_mem cases 0 0 j k cj l hj hl hk
    simpa [tagLocOf] using this
  have hloc_lt_T : tagLocOf cases j k < (allVals cases).length := by
    have := hlocs _ hmem
    rwa [switchDloc_eq] at this
  have hx : (switchC1 cases)[tagLocOf cases j k]?
      = some (SwInstr.swcase l[k] none) := by
    unfold switchC1
    rw [switchP1_code,
      List.getElem?_append_left (by rw [tagInstrs_length]; exact hloc_lt_T)]
    exact tagInstrs_at cases j k cj l hj hl hk
  have hdl : switchDloc cases < (switchC1 cases).length := by
    rw [switchC1_length, switchDloc_eq]
    omega
  have hp2 := pass2_tag_target (switchP1 cases).2.1 (switchDloc cases)
    hnd hlocs cases 0 (switchC1 cases) [] j (tagLocOf cases j k)
    (SwInstr.swcase l[k] none) cj hdl (Nat.zero_le j)
    (by rw [Nat.sub_zero]; exact hj) (by rw [hl]; rfl) hmem hx
  rw [Nat.sub_zero, switchC1_length] at hp2
  have hp2' : (switchP2 cases).1[tagLocOf cases j k]?
      = some (SwInstr.swcase l[k] (some (entryOf cases j))) := by
    unfold switchP2
    rw [hp2]
    rfl
  have hc3 : (switchC3 cases)[tagLocOf cases j k]?
      = some (SwInstr.swcase l[k] (some (entryOf cases j))) := by
    unfold switchC3
    rw [getElem?_foldPatch_ne (switchEndIdx cases) (switchP2 cases).2
      (switchP2 cases).1 (tagLocOf cases j k) ?_]
    · exact hp2'
    · intro p hp he
      rcases pass2_ends_lb (switchP1 cases).2.1 (switchDloc cases) cases 0
        (switchC1 cases) [] p hp with hin | hge
      · simp at hin
      · rw [switchC1_length] at hge
        omega
  have hloc_ne_dloc : tagLocOf cases j k ≠ switchDloc cases := by
    rw [switchDloc_eq]
    omega
  have hc4 : (switchC4 cases)[tagLocOf cases j k]?
      = some (SwInstr.swcase l[k] (some (entryOf cases j))) := by
    unfold switchC4
    split
    · exact hc3
    · rw [getElem?_patchAt_ne _ _ _ _ hloc_ne_dloc]
      exact hc3
  have hc4len : (switchC4 cases).length = switchEndIdx cases := by
    unfold switchC4
    split
    · exact switchC3_length cases
    · rw [patchAt_length]
      exact switchC3_length cases
  unfold genSwitchBody
  rw [List.getElem?_append_left (by
    rw [hc4len]
    have := dloc_lt_endIdx cases
    rw [switchDloc_eq] at this
    omega)]
  exact hc4

/-- The raw pass-2 case regions before back-patching: per case in source
order, the body statements followed by an unpatched end jump unless marked
fallthrough. -/
def regionsRaw : List CaseClause → List SwInstr
  | [] => []
  | c :: rest =>
    c.body.map SwInstr.stmtI
      ++ (if c.fall then [] else [SwInstr.jmp none]) ++ regionsRaw rest

/-- The end-jump locations pass 2 records, the regions starting at `base`:
one per non-fallthrough case, right after its body. -/
def endsFor : List CaseClause → Nat → List Nat
  | [], _ => []
  | c :: rest, base =>
    (if c.fall then [] else [base + c.body.length])
      ++ endsFor rest (base + regionLen c)

theorem switchC4_length (cases : List CaseClause) :
    (switchC4 cases).length = switchEndIdx cases := by
  unfold switchC4
  split
  · exact switchC3_length cases
  · rw [patchAt_length]
    exact switchC3_length cases

/-- Pass 2 appends exactly the raw case regions after the pass-1 prefix;
the prefix keeps its length, every location strictly between the default
jump and the prefix end is untouched, and the recorded end-jump locations
are exactly `endsFor`. -/
theorem regionsRaw_cons (c : CaseClause) (rest : List CaseClause) :
    regionsRaw (c :: rest) = c.body.map SwInstr.stmtI
      ++ (if c.fall then [] else [SwInstr.jmp none]) ++ regionsRaw rest := rfl

theorem endsFor_cons (c : CaseClause) (rest : List CaseClause) (base : Nat) :
    endsFor (c :: rest) base
      = (if c.fall then [] else [base + c.body.length])
        ++ endsFor rest (base + regionLen c) := rfl

/-- One step of pass 2 for a fallthrough clause. -/
theorem pass2_cons_fall (tags : List (Nat × Nat)) (dloc : Nat)
    (c : CaseClause) (rest : List CaseClause) (i : Nat)
    (code : List SwInstr) (ends : List Nat) (hf : c.fall = true) :
    pass2 tags dloc (c :: rest) i code ends
      = pass2 tags dloc rest (i + 1)
        ((match c.vals with
          | none => patchAt code dloc code.length
          | some _ => patchCase tags i code.length code)
          ++ c.body.map SwInstr.stmtI) ends := by
  conv_lhs => unfold pass2
  dsimp only
  rw [if_pos (by rw [hf])]

/-- One step of pass 2 for a non-fallthrough clause. -/
theorem pass2_cons_nofall (tags : List (Nat × Nat)) (dloc : Nat)
    (c : CaseClause) (rest : List CaseClause) (i : Nat)
    (code : List SwInstr) (ends : List Nat) (hf : c.fall = false) :
    pass2 tags dloc (c :: rest) i code ends
      = pass2 tags dloc rest (i + 1)
        (((match c.vals with
          | none => patchAt code dloc code.length
          | some _ => patchCase tags i code.length code)
          ++ c.body.map SwInstr.stmtI) ++ [SwInstr.jmp none])
        (ends ++ [((match c.vals with
          | none => patchAt code dloc code.length
          | some _ => patchCase tags i code.length code)
          ++ c.body.map SwInstr.stmtI).length]) := by
  conv_lhs => unfold pass2
  dsimp only
  rw [if_neg (by rw [hf]; simp)]


/-- Pass 2 appends exactly the raw case regions after the pass-1 prefix;
the prefix keeps its length, every location strictly between the default
jump and the prefix end is untouched, and the recorded end-jump locations
are exactly `endsFor`. -/
theorem pass2_suffix (tags : List (Nat × Nat)) (dloc : Nat)
    (hlocs : ∀ p ∈ tags, p.2 < dloc) :
    ∀ (rest : List CaseClause) (i : Nat) (code : List SwInstr)
      (ends : List Nat),
    dloc < code.length →
    ∃ pre : List SwInstr,
      (pass2 tags dloc rest i code ends).1 = pre ++ regionsRaw rest
      ∧ pre.length = code.length
      ∧ (∀ q, dloc < q → q < code.length → pre[q]? = code[q]?)
      ∧ (pass2 tags dloc rest i code ends).2
          = ends ++ endsFor rest code.length := by
  intro rest
  induction rest with
  | nil =>
    intro i code ends hdl
    exact ⟨code, by simp [pass2, regionsRaw], rfl,
      fun q _ _ => rfl, by simp [pass2, endsFor]⟩
  | cons c rest' ih =>
    intro i code ends hdl
    have hc1len : (match c.vals with
        | none => patchAt code dloc code.length
        | some _ => patchCase tags i code.length code).length
        = code.length := by
      cases c.vals with
      | none => exact patchAt_length code dloc code.length
      | some l => exact patchCase_length i code.length tags code
    have hc1get : ∀ q, dloc < q →
        (match c.vals with
          | none => patchAt code dloc code.length
          | some _ => patchCase tags i code.length code)[q]?
        = code[q]? := by
      intro q hq
      cases c.vals with
      | none => exact getElem?_patchAt_ne code dloc _ q (by omega)
      | some l =>
        exact getElem?_patchCase_ne i _ tags code q
          (fun p hp _ hpq => by have := hlocs p hp; omega)
    have hlen2 : ((match c.vals with
        | none => patchAt code dloc code.length
        | some _ => patchCase tags i code.length code)
        ++ c.body.map SwInstr.stmtI).length
        = code.length + c.body.length := by
      simp [hc1len]
    cases hf : c.fall with
    | true =>
      rw [pass2_cons_fall tags dloc c rest' i code ends hf]
      obtain ⟨pre', h1, h2, h3, h4⟩ := ih (i + 1)
        ((match c.vals with
          | none => patchAt code dloc code.length
          | some _ => patchCase tags i code.length code)
          ++ c.body.map SwInstr.stmtI) ends
        (by rw [hlen2]; omega)
      have h2' : pre'.length = code.length + c.body.length := by
        rw [h2, hlen2]
      rw [hlen2] at h3 h4
      refine ⟨pre'.take code.length, ?_, ?_, ?_, ?_⟩
      · rw [h1]
        have hdropT : pre'.drop code.length = c.body.map SwInstr.stmtI := by
          refine List.ext_getElem? ?_
          intro m
          rw [List.getElem?_drop]
          by_cases hm : m < c.body.length
          · rw [h3 (code.length + m) (by omega) (by omega)]
            rw [List.getElem?_append_right (by rw [hc1len]; omega)]
            rw [hc1len, show code.length + m - code.length = m by omega]
          · have h5 : pre'.length ≤ code.length + m := by omega
            have h6 : (c.body.map SwInstr.stmtI).length ≤ m := by
              simp only [List.length_map]
              omega
            rw [List.getElem?_eq_none h5, List.getElem?_eq_none h6]
        calc pre' ++ regionsRaw rest'
            = (pre'.take code.length ++ pre'.drop code.length)
              ++ regionsRaw rest' := by rw [List.take_append_drop]
          _ = pre'.take code.length
              ++ (c.body.map SwInstr.stmtI ++ regionsRaw rest') := by
              rw [hdropT, List.append_assoc]
          _ = pre'.take code.length ++ regionsRaw (c :: rest') := by
              rw [regionsRaw_cons, hf]
              simp
      · rw [List.length_take]
        omega
      · intro q hq1 hq2
        rw [List.getElem?_take_of_lt hq2,
          h3 q hq1 (by omega),
          List.getElem?_append_left (by rw [hc1len]; omega)]
        exact hc1get q hq1
      · rw [h4, endsFor_cons, hf]
        rw [show regionLen c = c.body.length by simp [regionLen, hf]]
        simp
    | false =>
      rw [pass2_cons_nofall tags dloc c rest' i code ends hf]
      obtain ⟨pre', h1, h2, h3, h4⟩ := ih (i + 1)
        (((match c.vals with
          | none => patchAt code dloc code.length
          | some _ => patchCase tags i code.length code)
          ++ c.body.map SwInstr.stmtI) ++ [SwInstr.jmp none])
        (ends ++ [((match c.vals with
          | none => patchAt code dloc code.length
          | some _ => patchCase tags i code.length code)
          ++ c.body.map SwInstr.stmtI).length])
        (by
          simp only [List.length_append, hc1len, List.length_map,
            List.length_cons, List.length_nil]
          omega)
      have hlen3 : (((match c.vals with
          | none => patchAt code dloc code.length
          | some _ => patchCase tags i code.length code)
          ++ c.body.map SwInstr.stmtI) ++ [SwInstr.jmp none]).length
          = code.length + (c.body.length + 1) := by
        simp only [List.length_append, hc1len, List.length_map,
          List.length_cons, List.length_nil]
        omega
      have h2' : pre'.length = code.length + (c.body.length + 1) := by
        rw [h2, hlen3]
      rw [hlen3] at h3 h4
      refine ⟨pre'.take code.length, ?_, ?_, ?_, ?_⟩
      · rw [h1]
        have hdropT : pre'.drop code.length
            = c.body.map SwInstr.stmtI ++ [SwInstr.jmp none] := by
          refine List.ext_getElem? ?_
          intro m
          rw [List.getElem?_drop]
          by_cases hm : m < c.body.length + 1
          · rw [h3 (code.length + m) (by omega) (by omega)]
            by_cases hm2 : m < c.body.length
            · rw [List.getElem?_append_left (by rw [hlen2]; omega),
                List.getElem?_append_right (by rw [hc1len]; omega)]
              rw [hc1len, show code.length + m - code.length = m by omega,
                List.getElem?_append_left (by simp; omega)]
            · have hmeq : m = c.body.length := by omega
              subst hmeq
              rw [List.getElem?_append_right (by rw [hlen2])]
              rw [hlen2,
                show code.length + c.body.length
                  - (code.length + c.body.length) = 0 by omega,
                List.getElem?_append_right (by simp),
                show c.body.length - (c.body.map SwInstr.stmtI).length = 0
                  by simp]
          · have h5 : pre'.length ≤ code.length + m := by omega
            have h6 : (c.body.map SwInstr.stmtI
                ++ [SwInstr.jmp none]).length ≤ m := by
              simp only [List.length_append, List.length_map,
                List.length_cons, List.length_nil]
              omega
            rw [List.getElem?_eq_none h5, List.getElem?_eq_none h6]
        calc pre' ++ regionsRaw rest'
            = (pre'.take code.length ++ pre'.drop code.length)
              ++ regionsRaw rest' := by rw [List.take_append_drop]
          _ = pre'.take code.length
              ++ ((c.body.map SwInstr.stmtI ++ [SwInstr.jmp none])
                ++ regionsRaw rest') := by
              rw [hdropT, List.append_assoc]
          _ = pre'.take code.length ++ regionsRaw (c :: rest') := by
              rw [regionsRaw_cons, hf]
              simp
      · rw [List.length_take]
        omega
      · intro q hq1 hq2
        rw [List.getElem?_take_of_lt hq2,
          h3 q hq1 (by omega),
          List.getElem?_append_left (by rw [hlen2]; omega),
          List.getElem?_append_left (by rw [hc1len]; omega)]
        exact hc1get q hq1
      · rw [h4, endsFor_cons, hf]
        rw [show regionLen c = c.body.length + 1 by simp [regionLen, hf]]
        rw [hlen2]
        simp

theorem caseRegionKinds_length (c : CaseClause) :
    (caseRegionKinds c).length = regionLen c := by
  unfold caseRegionKinds regionLen
  cases c.fall with
  | true => simp
  | false => simp

theorem regionKinds_flatten_length :
    ∀ cases : List CaseClause,
    ((cases.map caseRegionKinds).flatten).length
      = (cases.map regionLen).sum := by
  intro cases
  induction cases with
  | nil => rfl
  | cons c rest ih =>
    simp only [List.map_cons, List.flatten_cons, List.length_append,
      List.sum_cons, ih, caseRegionKinds_length]

theorem regionLen_take_le :
    ∀ (cases : List CaseClause) (j : Nat) (cj : CaseClause),
    cases[j]? = some cj →
    ((cases.take j).map regionLen).sum + regionLen cj
      ≤ (cases.map regionLen).sum := by
  intro cases
  induction cases with
  | nil => intro j cj hj; simp at hj
  | cons c rest ih =>
    intro j cj hj
    cases j with
    | zero =>
      simp at hj
      subst hj
      simp
    | succ j' =>
      simp at hj
      have := ih j' cj hj
      simp only [List.take_succ_cons, List.map_cons, List.sum_cons]
      omega

theorem endsFor_bounds :
    ∀ (cases : List CaseClause) (base : Nat) (e : Nat),
    e ∈ endsFor cases base →
    base ≤ e ∧ e < base + (cases.map regionLen).sum := by
  intro cases
  induction cases with
  | nil => intro base e h; simp [endsFor] at h
  | cons c rest ih =>
    intro base e h
    rw [endsFor_cons] at h
    simp only [List.map_cons, List.sum_cons]
    cases hf : c.fall with
    | true =>
      rw [hf] at h
      simp at h
      have := ih (base + regionLen c) e h
      omega
    | false =>
      rw [hf] at h
      simp at h
      rcases h with hone | hrest
      · have : regionLen c = c.body.length + 1 := by simp [regionLen, hf]
        omega
      · have := ih (base + regionLen c) e hrest
        omega

theorem endsFor_nodup :
    ∀ (cases : List CaseClause) (base : Nat), (endsFor cases base).Nodup := by
  intro cases
  induction cases with
  | nil => intro base; simp [endsFor]
  | cons c rest ih =>
    intro base
    rw [endsFor_cons]
    cases hf : c.fall with
    | true =>
      simpa using ih (base + regionLen c)
    | false =>
      rw [if_neg (by simp)]
      simp only [List.singleton_append, List.nodup_cons]
      refine ⟨?_, ih (base + regionLen c)⟩
      intro hmem
      have hb := endsFor_bounds rest (base + regionLen c) _ hmem
      have : regionLen c = c.body.length + 1 := by simp [regionLen, hf]
      omega

/-- The recorded end-jump location of a non-fallthrough case `j`: right
after its body, inside its own region. -/
theorem endsFor_mem :
    ∀ (cases : List CaseClause) (base j : Nat) (cj : CaseClause),
    cases[j]? = some cj → cj.fall = false →
    base + ((cases.take j).map regionLen).sum + cj.body.length
      ∈ endsFor cases base := by
  intro cases
  induction cases with
  | nil => intro base j cj hj hf; simp at hj
  | cons c rest ih =>
    intro base j cj hj hf
    cases j with
    | zero =>
      simp at hj
      subst hj
      rw [endsFor_cons, hf]
      simp
    | succ j' =>
      simp at hj
      have hrec := ih (base + regionLen c) j' cj hj hf
      rw [endsFor_cons]
      refine List.mem_append_right _ ?_
      simp only [List.take_succ_cons, List.map_cons, List.sum_cons]
      rw [show base + (regionLen c
          + ((rest.take j').map regionLen).sum) + cj.body.length
        = base + regionLen c
          + ((rest.take j').map regionLen).sum + cj.body.length by omega]
      exact hrec

/-- In the raw regions, a non-fallthrough case's trailing end jump sits
right after its body, still unpatched. -/
theorem regionsRaw_at :
    ∀ (cases : List CaseClause) (j : Nat) (cj : CaseClause),
    cases[j]? = some cj → cj.fall = false →
    (regionsRaw cases)[((cases.take j).map regionLen).sum + cj.body.length]?
      = some (SwInstr.jmp none) := by
  intro cases
  induction cases with
  | nil => intro j cj hj hf; simp at hj
  | cons c rest ih =>
    intro j cj hj hf
    cases j with
    | zero =>
      simp at hj
      subst hj
      rw [regionsRaw_cons, hf, if_neg (by simp)]
      simp only [List.take_zero, List.map_nil, List.sum_nil, Nat.zero_add]
      rw [List.getElem?_append_left (by simp),
        List.getElem?_append_right (by simp)]
      simp
    | succ j' =>
      simp at hj
      have hrec := ih j' cj hj hf
      rw [regionsRaw_cons]
      have hpref : (c.body.map SwInstr.stmtI
          ++ if c.fall then [] else [SwInstr.jmp none]).length
          = regionLen c := by
        unfold regionLen
        cases c.fall with
        | true => simp
        | false => simp
      simp only [List.take_succ_cons, List.map_cons, List.sum_cons]
      rw [List.getElem?_append_right (by rw [hpref]; omega), hpref,
        show regionLen c + ((rest.take j').map regionLen).sum
            + cj.body.length - regionLen c
          = ((rest.take j').map regionLen).sum + cj.body.length by omega]
      exact hrec

/-- Every non-fallthrough case body's trailing jump is back-patched, in the
final generated stream, to the end of the switch. -/
theorem genSwitchBody_end_target (cases : List CaseClause) (j : Nat)
    (cj : CaseClause) (hj : cases[j]? = some cj) (hf : cj.fall = false) :
    (genSwitchBody cases)[entryOf cases j + cj.body.length]?
      = some (SwInstr.jmp (some (switchEndIdx cases))) := by
  have hlocs : ∀ p ∈ (switchP1 cases).2.1, p.2 < switchDloc cases := by
    rw [switchP1_tags, switchDloc_eq]
    intro p hp
    have := tagsFor_bounds cases 0 0 p hp
    omega
  have hdl : switchDloc cases < (switchC1 cases).length := by
    rw [switchC1_length, switchDloc_eq]
    omega
  obtain ⟨pre, h1, h2, h3, h4⟩ := pass2_suffix (switchP1 cases).2.1
    (switchDloc cases) hlocs cases 0 (switchC1 cases) [] hdl
  have hq : entryOf cases j + cj.body.length
      = (switchC1 cases).length
        + (((cases.take j).map regionLen).sum + cj.body.length) := by
    rw [switchC1_length]
    unfold entryOf
    omega
  have hrloc : regionLen cj = cj.body.length + 1 := by simp [regionLen, hf]
  have hqlt : ((cases.take j).map regionLen).sum + cj.body.length
      < (cases.map regionLen).sum := by
    have := regionLen_take_le cases j cj hj
    omega
  have hp2at : (switchP2 cases).1[entryOf cases j + cj.body.length]?
      = some (SwInstr.jmp none) := by
    have hle : (switchP2 cases).1 = pre ++ regionsRaw cases := h1
    rw [hle, hq, ← h2,
      List.getElem?_append_right (by omega),
      show pre.length + (((cases.take j).map regionLen).sum
        + cj.body.length) - pre.length
        = ((cases.take j).map regionLen).sum + cj.body.length by omega]
    exact regionsRaw_at cases j cj hj hf
  have h4' : (switchP2 cases).2
      = [] ++ endsFor cases (switchC1 cases).length := h4
  have hqmem : entryOf cases j + cj.body.length
      ∈ (switchP2 cases).2 := by
    rw [h4']
    simp only [List.nil_append]
    have := endsFor_mem cases (switchC1 cases).length j cj hj hf
    rw [hq]
    rw [show (switchC1 cases).length + (((cases.take j).map regionLen).sum
        + cj.body.length)
      = (switchC1 cases).length + ((cases.take j).map regionLen).sum
        + cj.body.length by omega]
    exact this
  have hqnodup : ((switchP2 cases).2).Nodup := by
    rw [h4']
    simp only [List.nil_append]
    exact endsFor_nodup cases (switchC1 cases).length
  have hc3 : (switchC3 cases)[entryOf cases j + cj.body.length]?
      = some (SwInstr.jmp (some (switchEndIdx cases))) := by
    unfold switchC3
    have := getElem?_foldPatch_eq (switchEndIdx cases) (switchP2 cases).2
      (switchP2 cases).1 (entryOf cases j + cj.body.length)
      (SwInstr.jmp none) hqnodup hqmem hp2at
    rw [this]
    rfl
  have hqne : entryOf cases j + cj.body.length ≠ switchDloc cases := by
    rw [switchDloc_eq]
    unfold entryOf
    omega
  have hc4 : (switchC4 cases)[entryOf cases j + cj.body.length]?
      = some (SwInstr.jmp (some (switchEndIdx cases))) := by
    unfold switchC4
    split
    · exact hc3
    · rw [getElem?_patchAt_ne _ _ _ _ hqne]
      exact hc3
  unfold genSwitchBody
  rw [List.getElem?_append_left (by
    rw [switchC4_length, switchEndIdx_eq, regionKinds_flatten_length]
    unfold entryOf
    omega)]
  exact hc4

/-- Pass 2 leaves the default-jump location unchanged when none of the
remaining clauses is a default clause. -/
theorem pass2_no_touch_dloc (tags : List (Nat × Nat)) (dloc : Nat)
    (hlocs : ∀ p ∈ tags, p.2 < dloc) :
    ∀ (rest : List CaseClause) (i : Nat) (code : List SwInstr)
      (ends : List Nat),
    dloc < code.length →
    (∀ c ∈ rest, c.vals.isSome) →
    (pass2 tags dloc rest i code ends).1[dloc]? = code[dloc]? := by
  intro rest
  induction rest with
  | nil => intro i code ends h1 h2; rfl
  | cons c rest' ih =>
    intro i code ends h1 h2
    obtain ⟨l, hl⟩ := Option.isSome_iff_exists.mp
      (h2 c (List.mem_cons_self c rest'))
    have h2' : ∀ c' ∈ rest', c'.vals.isSome :=
      fun c' hc' => h2 c' (List.mem_cons_of_mem _ hc')
    have hc1at : (patchCase tags i code.length code)[dloc]? = code[dloc]? :=
      getElem?_patchCase_ne i _ tags code dloc
        (fun p hp _ hpd => by have := hlocs p hp; omega)
    unfold pass2
    dsimp only
    rw [hl]
    dsimp only
    cases hf : c.fall with
    | true =>
      rw [if_pos rfl]
      rw [ih (i + 1) _ ends
        (by simp only [List.length_append, patchCase_length]; omega) h2']
      rw [List.getElem?_append_left (by rw [patchCase_length]; omega)]
      exact hc1at
    | false =>
      rw [if_neg (by simp)]
      rw [ih (i + 1) _ _
        (by simp only [List.length_append, patchCase_length]; omega) h2']
      rw [List.getElem?_append_left (by
          simp only [List.length_append, patchCase_length]
          omega),
        List.getElem?_append_left (by rw [patchCase_length]; omega)]
      exact hc1at

/-- Pass 2 patches the recorded default jump to the default clause's body
entry, when a (unique) default clause is among the remaining clauses. -/
theorem pass2_default_target (tags : List (Nat × Nat)) (dloc : Nat)
    (hlocs : ∀ p ∈ tags, p.2 < dloc) :
    ∀ (rest : List CaseClause) (i : Nat) (code : List SwInstr)
      (ends : List Nat) (d : Nat) (cd : CaseClause) (x : SwInstr),
    dloc < code.length → i ≤ d → rest[d - i]? = some cd → cd.vals = none →
    (∀ (m : Nat) (cm : CaseClause), rest[m]? = some cm → cm.vals = none →
      m = d - i) →
    code[dloc]? = some x →
    (pass2 tags dloc rest i code ends).1[dloc]?
      = some (x.withTarget (code.length
          + ((rest.take (d - i)).map regionLen).sum)) := by
  intro rest
  induction rest with
  | nil => intro i code ends d cd x hdl hid hd0 hcv hun hx; simp at hd0
  | cons c rest' ih =>
    intro i code ends d cd x hdl hid hd0 hcv hun hx
    rcases Nat.eq_or_lt_of_le hid with heq | hlt
    · -- the head clause is the default: patched to this entry, then untouched
      have hdi : d - i = 0 := by omega
      rw [hdi] at hd0 ⊢
      simp at hd0
      subst hd0
      have hpatched := getElem?_patchAt_eq code dloc code.length x hx
      have hrestdef : ∀ c' ∈ rest', c'.vals.isSome := by
        intro c' hc'
        obtain ⟨m, hm⟩ := List.mem_iff_getElem?.mp hc'
        cases hsome : c'.vals with
        | some l => rfl
        | none =>
          have := hun (m + 1) c' (by simpa using hm) hsome
          omega
      unfold pass2
      dsimp only
      rw [hcv]
      dsimp only
      simp only [List.take_zero, List.map_nil, List.sum_nil, Nat.add_zero]
      cases hf : c.fall with
      | true =>
        rw [if_pos rfl]
        rw [pass2_no_touch_dloc tags dloc hlocs rest' (i + 1) _ ends
          (by simp only [List.length_append, patchAt_length]; omega)
          hrestdef]
        rw [List.getElem?_append_left (by rw [patchAt_length]; omega)]
        exact hpatched
      | false =>
        rw [if_neg (by simp)]
        rw [pass2_no_touch_dloc tags dloc hlocs rest' (i + 1) _ _
          (by simp only [List.length_append, patchAt_length]; omega)
          hrestdef]
        rw [List.getElem?_append_left (by
            simp only [List.length_append, patchAt_length]
            omega),
          List.getElem?_append_left (by rw [patchAt_length]; omega)]
        exact hpatched
    · -- an earlier non-default clause: its patches miss the default location
      have hcne : c.vals.isSome := by
        cases hsome : c.vals with
        | some l => rfl
        | none =>
          have := hun 0 c (by simp) hsome
          omega
      obtain ⟨l, hl⟩ := Option.isSome_iff_exists.mp hcne
      have hd0' : rest'[d - (i + 1)]? = some cd := by
        have : d - i = (d - (i + 1)) + 1 := by omega
        rw [this] at hd0
        simpa using hd0
      have hun' : ∀ (m : Nat) (cm : CaseClause), rest'[m]? = some cm →
          cm.vals = none → m = d - (i + 1) := by
        intro m cm hm hvm
        have := hun (m + 1) cm (by simpa using hm) hvm
        omega
      have htake : (c :: rest').take (d - i)
          = c :: rest'.take (d - (i + 1)) := by
        have : d - i = (d - (i + 1)) + 1 := by omega
        rw [this]
        rfl
      have hc1at : (patchCase tags i code.length code)[dloc]? = some x := by
        rw [getElem?_patchCase_ne i _ tags code dloc
          (fun p hp _ hpd => by have := hlocs p hp; omega)]
        exact hx
      unfold pass2
      dsimp only
      rw [hl]
      dsimp only
      cases hf : c.fall with
      | true =>
        rw [if_pos rfl]
        have hrec := ih (i + 1)
          (patchCase tags i code.length code ++ c.body.map SwInstr.stmtI)
          ends d cd x
          (by simp only [List.length_append, patchCase_length]; omega)
          (by omega) hd0' hcv hun'
          (by
            rw [List.getElem?_append_left (by rw [patchCase_length]; omega)]
            exact hc1at)
        rw [hrec]
        congr 2
        have hsum : ((List.take (d - i) (c :: rest')).map regionLen).sum
            = regionLen c
              + ((List.take (d - (i + 1)) rest').map regionLen).sum := by
          rw [htake, List.map_cons, List.sum_cons]
        have hrl : regionLen c = c.body.length := by
          simp [regionLen, hf]
        simp only [List.length_append, patchCase_length, List.length_map]
        omega
      | false =>
        rw [if_neg (by simp)]
        have hrec := ih (i + 1)
          ((patchCase tags i code.length code ++ c.body.map SwInstr.stmtI)
            ++ [SwInstr.jmp none])
          (ends ++ [(patchCase tags i code.length code
            ++ c.body.map SwInstr.stmtI).length])
          d cd x
          (by simp only [List.length_append, patchCase_length]; omega)
          (by omega) hd0' hcv hun'
          (by
            rw [List.getElem?_append_left (by
                simp only [List.length_append, patchCase_length]
                omega),
              List.getElem?_append_left (by rw [patchCase_length]; omega)]
            exact hc1at)
        rw [hrec]
        congr 2
        have hsum : ((List.take (d - i) (c :: rest')).map regionLen).sum
            = regionLen c
              + ((List.take (d - (i + 1)) rest').map regionLen).sum := by
          rw [htake, List.map_cons, List.sum_cons]
        have hrl : regionLen c = c.body.length + 1 := by
          simp [regionLen, hf]
        simp only [List.length_append, patchCase_length, List.length_map,
          List.length_cons, List.length_nil]
        omega

/-- When a (unique) default clause is present, the always-emitted trailing
default jump is back-patched, in the final generated stream, to the default
clause's body entry. -/
theorem genSwitchBody_present_default_target (cases : List CaseClause)
    (d : Nat) (cd : CaseClause)
    (hd : cases[d]? = some cd) (hv : cd.vals = none)
    (hun : ∀ (m : Nat) (cm : CaseClause), cases[m]? = some cm →
      cm.vals = none → m = d) :
    (genSwitchBody cases)[(allVals cases).length]?
      = some (SwInstr.jmp (some (entryOf cases d))) := by
  have hlocs : ∀ p ∈ (switchP1 cases).2.1, p.2 < switchDloc cases := by
    rw [switchP1_tags, switchDloc_eq]
    intro p hp
    have := tagsFor_bounds cases 0 0 p hp
    omega
  have hdl : switchDloc cases < (switchC1 cases).length := by
    rw [switchC1_length, switchDloc_eq]
    omega
  have hx : (switchC1 cases)[switchDloc cases]?
      = some (SwInstr.jmp none) := by
    unfold switchC1
    rw [switchP1_code]
    have h : (tagInstrs cases).length = switchDloc cases := by
      rw [switchDloc_eq, tagInstrs_length]
    rw [← h, List.getElem?_concat_length]
  have hp2 := pass2_default_target (switchP1 cases).2.1 (switchDloc cases)
    hlocs cases 0 (switchC1 cases) [] d cd (SwInstr.jmp none)
    hdl (Nat.zero_le d) (by rw [Nat.sub_zero]; exact hd) hv
    (by
      intro m cm hm hvm
      rw [Nat.sub_zero]
      exact hun m cm hm hvm) hx
  rw [Nat.sub_zero, switchC1_length] at hp2
  have hp2' : (switchP2 cases).1[switchDloc cases]?
      = some (SwInstr.jmp (some (entryOf cases d))) := by
    unfold switchP2
    rw [hp2]
    rfl
  have hc3 : (switchC3 cases)[switchDloc cases]?
      = some (SwInstr.jmp (some (entryOf cases d))) := by
    unfold switchC3
    rw [getElem?_foldPatch_ne (switchEndIdx cases) (switchP2 cases).2
      (switchP2 cases).1 (switchDloc cases) ?_]
    · exact hp2'
    · intro p hp he
      rcases pass2_ends_lb (switchP1 cases).2.1 (switchDloc cases) cases 0
        (switchC1 cases) [] p hp with hin | hge
      · simp at hin
      · rw [switchC1_length, switchDloc_eq] at *
        omega
  have hdef : (switchP1 cases).2.2 = true := by
    unfold switchP1
    rw [pass1_hasDefault]
    simp only [Bool.false_or]
    rw [List.any_eq_true]
    obtain ⟨hlt2, heq⟩ := List.getElem?_eq_some.mp hd
    exact ⟨cd, heq ▸ List.getElem_mem hlt2, by simp [hv]⟩
  have hc4 : switchC4 cases = switchC3 cases := by
    unfold switchC4
    rw [hdef]
    simp
  rw [← switchDloc_eq]
  unfold genSwitchBody
  rw [List.getElem?_append_left (by
    rw [switchC4_length]
    exact dloc_lt_endIdx cases)]
  rw [hc4]
  exact hc3

/-- A concrete 3-case integer switch with no default clause: case values
`[1,2]`, `[3]`, `[4]`, the middle case marked fallthrough. -/
def c4Cases : List CaseClause :=
  [{ vals := some [1, 2], body := [10], fall := false },
   { vals := some [3], body := [11, 12], fall := true },
   { vals := some [4], body := [13], fall := false }]

/-- C4: for every switch lowered by `gen_switch_body`, pass 1 emits one
tagged conditional jump per case value and always emits a trailing default
jump, and pass 2 emits the case bodies in source order, each body not marked
fallthrough followed by an end jump, closing with the tag pop (the kind-level
layout equality); all recorded jump offsets are back-patched to the correct
addresses: every recorded tag jump to its case's body-entry address, every
recorded end jump to the switch's end address, and the default jump to the
(unique) default clause's body entry when one is present; when no default
clause is present the default jump's target is patched to the end of the
switch, and a tag matching no case value executes no case-body statement and
resumes after the switch. -/
theorem gen_switch_body_correct (cases : List CaseClause) :
    ((genSwitchBody cases).map SwInstr.kind = switchSkeleton cases)
    ∧ (∀ (j k : Nat) (cj : CaseClause) (l : List Int),
        cases[j]? = some cj → cj.vals = some l → (hk : k < l.length) →
        (genSwitchBody cases)[tagLocOf cases j k]?
          = some (SwInstr.swcase l[k] (some (entryOf cases j))))
    ∧ (∀ (j : Nat) (cj : CaseClause),
        cases[j]? = some cj → cj.fall = false →
        (genSwitchBody cases)[entryOf cases j + cj.body.length]?
          = some (SwInstr.jmp (some (switchEndIdx cases))))
    ∧ (∀ (d : Nat) (cd : CaseClause),
        cases[d]? = some cd → cd.vals = none →
        (∀ (m : Nat) (cm : CaseClause), cases[m]? = some cm →
          cm.vals = none → m = d) →
        (genSwitchBody cases)[(allVals cases).length]?
          = some (SwInstr.jmp (some (entryOf cases d))))
    ∧ ((∀ c ∈ cases, c.vals.isSome) →
        (genSwitchBody cases)[(allVals cases).length]?
          = some (SwInstr.jmp (some (switchEndIdx cases)))
        ∧ ∀ (tag : Int) (fuel : Nat), tag ∉ allVals cases →
            (allVals cases).length + 3 ≤ fuel →
            execSw (genSwitchBody cases) tag fuel 0 = some []) := by
  refine ⟨genSwitchBody_kinds cases, ?_, ?_, ?_, ?_⟩
  · intro j k cj l hj hl hk
    exact genSwitchBody_tag_target cases j k cj l hj hl hk
  · intro j cj hj hf
    exact genSwitchBody_end_target cases j cj hj hf
  · intro d cd hd hv hun
    exact genSwitchBody_present_default_target cases d cd hd hv hun
  · intro hnodef
    exact ⟨genSwitchBody_default_target cases hnodef,
      fun tag fuel hnm hfuel =>
        execSw_no_match cases tag hnodef hnm fuel hfuel⟩

/-- A concrete 3-clause switch whose middle clause is the default. -/
def c4CasesDef : List CaseClause :=
  [{ vals := some [1, 2], body := [10], fall := false },
   { vals := none, body := [11], fall := false },
   { vals := some [4], body := [13], fall := false }]

/-- Witness for C4: on the concrete 3-case no-default switch, the layout,
the patched tag jump of case 1, the patched end jump of case 2, the default
jump patched to the end, and the no-match run (tag 9) executing no body; on
the concrete switch with a default clause, the default jump patched to the
default clause's body entry. -/
theorem gen_switch_body_correct_witness :
    ((genSwitchBody c4Cases).map SwInstr.kind = switchSkeleton c4Cases)
    ∧ (genSwitchBody c4Cases)[tagLocOf c4Cases 1 0]?
        = some (SwInstr.swcase 3 (some (entryOf c4Cases 1)))
    ∧ (genSwitchBody c4Cases)[entryOf c4Cases 2 + 1]?
        = some (SwInstr.jmp (some (switchEndIdx c4Cases)))
    ∧ (genSwitchBody c4Cases)[(allVals c4Cases).length]?
        = some (SwInstr.jmp (some (switchEndIdx c4Cases)))
    ∧ execSw (genSwitchBody c4Cases) 9 8 0 = some []
    ∧ (genSwitchBody c4CasesDef)[(allVals c4CasesDef).length]?
        = some (SwInstr.jmp (some (entryOf c4CasesDef 1))) := by
  obtain ⟨h1, h2, h3, _, h5⟩ := gen_switch_body_correct c4Cases
  obtain ⟨hd, hexec⟩ := h5 (by decide)
  obtain ⟨_, _, _, g4, _⟩ := gen_switch_body_correct c4CasesDef
  refine ⟨h1, ?_, ?_, hd, hexec 9 8 (by decide) (by decide), ?_⟩
  · exact h2 1 0 { vals := some [3], body := [11, 12], fall := true } [3]
      (by decide) (by decide) (by decide)
  · exact h3 2 { vals := some [4], body := [13], fall := false }
      (by decide) (by decide)
  · refine g4 1 { vals := none, body := [11], fall := false }
      (by decide) (by decide) ?_
    intro m cm hm hvm
    rcases m with _ | _ | _ | n
    · rw [show c4CasesDef[0]?
          = some { vals := some [1, 2], body := [10], fall := false }
        from rfl] at hm
      cases hm
      exact absurd hvm (by decide)
    · rfl
    · rw [show c4CasesDef[2]?
          = some { vals := some [4], body := [13], fall := false }
        from rfl] at hm
      cases hm
      exact absurd hvm (by decide)
    · rw [List.getElem?_eq_none (by simp [c4CasesDef])] at hm
      cases hm

end Goscript
